import Mathlib

set_option autoImplicit false

/-!
Verification development for the pythonBC proof-of-work blockchain node.

The Python sources are shallowly embedded here.  Program strings are byte
strings (`Str := List Nat`, UTF-8 bytes); Python's `str`/`bytes` boundary
(`.encode('utf-8')` / `.decode('utf-8')`) is therefore the identity in the
model, and every string constant of the program is ASCII, so `ascii`
translates Lean string literals to the corresponding byte strings.

External collaborators are kept abstract exactly where the program treats
them as abstract capabilities: the digest provider (`hashlib` behind
`HashMaker.hash_string`) is a parameter `H : Str → Str`, signature
verification (`Security.is_signature_valid`) is a parameter
`verify : Str → Str → Str → Bool`, and key-format detection
(`Security.detect_address_type`, DER/JSON parsing) is a parameter
`detect : Str → AddrType`.  Base64 (`tools/converter.py` wrapping Python's
`base64` module) is implemented concretely, since digests of encodings are
consensus-relevant.  Python `float` amounts are modelled as rationals with
their decimal string form, following the numeric-semantics contract of the
system (amounts are decimal-rendered, losslessly round-trippable numbers).
-/

/-- Byte strings: the model of Python `str`/`bytes` values (UTF-8 bytes). -/
abbrev Str : Type := List Nat

/-- Bytes of an ASCII Lean literal; used for the program's string constants. -/
def ascii (s : String) : Str := s.data.map Char.toNat

/-- Well-formed byte string: every entry is a byte. -/
def WfStr (s : Str) : Prop := ∀ b ∈ s, b < 256

instance (s : Str) : Decidable (WfStr s) := by
  unfold WfStr; infer_instance

/-! ## Base64 (tools/converter.py, Python `base64.b64encode`/`b64decode`) -/

/-- The base64 alphabet character (as a byte) for a sextet value. -/
def b64Char (n : Nat) : Nat :=
  if n < 26 then 65 + n
  else if n < 52 then 97 + (n - 26)
  else if n < 62 then 48 + (n - 52)
  else if n = 62 then 43
  else 47

/-- Inverse of `b64Char`: sextet value of an alphabet byte. -/
def b64Val (c : Nat) : Option Nat :=
  if 65 ≤ c ∧ c ≤ 90 then some (c - 65)
  else if 97 ≤ c ∧ c ≤ 122 then some (26 + (c - 97))
  else if 48 ≤ c ∧ c ≤ 57 then some (52 + (c - 48))
  else if c = 43 then some 62
  else if c = 47 then some 63
  else none

/-- Base64 encoding of a byte string, with `=` (byte 61) padding. -/
def b64encode : Str → Str
  | [] => []
  | [b0] => [b64Char (b0 / 4), b64Char (b0 % 4 * 16), 61, 61]
  | [b0, b1] => [b64Char (b0 / 4), b64Char (b0 % 4 * 16 + b1 / 16),
                 b64Char (b1 % 16 * 4), 61]
  | b0 :: b1 :: b2 :: rest =>
      b64Char (b0 / 4) :: b64Char (b0 % 4 * 16 + b1 / 16) ::
      b64Char (b1 % 16 * 4 + b2 / 64) :: b64Char (b2 % 64) :: b64encode rest

/-- Base64 decoding; `none` models Python's `binascii.Error` escape. -/
def b64decode : Str → Option Str
  | [] => some []
  | c0 :: c1 :: c2 :: c3 :: rest =>
    match b64Val c0, b64Val c1 with
    | some v0, some v1 =>
      if c2 = 61 then
        if c3 = 61 ∧ rest = [] then some [v0 * 4 + v1 / 16] else none
      else
        match b64Val c2 with
        | some v2 =>
          if c3 = 61 then
            if rest = [] then some [v0 * 4 + v1 / 16, v1 % 16 * 16 + v2 / 4]
            else none
          else
            match b64Val c3, b64decode rest with
            | some v3, some bs =>
                some ((v0 * 4 + v1 / 16) :: (v1 % 16 * 16 + v2 / 4) ::
                      (v2 % 4 * 64 + v3) :: bs)
            | _, _ => none
        | none => none
    | _, _ => none
  | _ => none

theorem b64Val_b64Char : ∀ n < 64, b64Val (b64Char n) = some n := by decide

theorem b64Char_ne_pad : ∀ n < 64, b64Char n ≠ 61 := by decide

theorem b64Char_props : ∀ n, b64Char n < 123 ∧ b64Char n ≠ 44 ∧
    b64Char n ≠ 32 ∧ b64Char n ≠ 58 := by
  intro n
  unfold b64Char
  repeat' split
  all_goals omega

theorem b64encode_mem : ∀ s, ∀ c ∈ b64encode s,
    c < 123 ∧ c ≠ 44 ∧ c ≠ 32 ∧ c ≠ 58
  | [], c, hc => by simp [b64encode] at hc
  | [b0], c, hc => by
    simp [b64encode] at hc
    rcases hc with h | h | h <;> subst h
    · exact b64Char_props _
    · exact b64Char_props _
    · omega
  | [b0, b1], c, hc => by
    simp [b64encode] at hc
    rcases hc with h | h | h | h <;> subst h
    · exact b64Char_props _
    · exact b64Char_props _
    · exact b64Char_props _
    · omega
  | b0 :: b1 :: b2 :: rest, c, hc => by
    simp only [b64encode, List.mem_cons] at hc
    rcases hc with h | h | h | h | h
    · subst h; exact b64Char_props _
    · subst h; exact b64Char_props _
    · subst h; exact b64Char_props _
    · subst h; exact b64Char_props _
    · exact b64encode_mem rest c h

theorem b64decode_b64encode : ∀ s, WfStr s → b64decode (b64encode s) = some s
  | [], _ => by simp [b64encode, b64decode]
  | [b0], hwf => by
    have h0 : b0 < 256 := hwf b0 (by simp)
    have hv0 : b0 / 4 < 64 := by omega
    have hv1 : b0 % 4 * 16 < 64 := by omega
    simp only [b64encode, b64decode, b64Val_b64Char _ hv0, b64Val_b64Char _ hv1]
    simp
    omega
  | [b0, b1], hwf => by
    have h0 : b0 < 256 := hwf b0 (by simp)
    have h1 : b1 < 256 := hwf b1 (by simp)
    have hv0 : b0 / 4 < 64 := by omega
    have hv1 : b0 % 4 * 16 + b1 / 16 < 64 := by omega
    have hv2 : b1 % 16 * 4 < 64 := by omega
    simp only [b64encode, b64decode, b64Val_b64Char _ hv0, b64Val_b64Char _ hv1,
      b64Val_b64Char _ hv2, b64Char_ne_pad _ hv2, if_false]
    simp
    constructor
    · omega
    · omega
  | b0 :: b1 :: b2 :: rest, hwf => by
    have h0 : b0 < 256 := hwf b0 (by simp)
    have h1 : b1 < 256 := hwf b1 (by simp)
    have h2 : b2 < 256 := hwf b2 (by simp)
    have hwr : WfStr rest := fun b hb => hwf b (by simp [hb])
    have hv0 : b0 / 4 < 64 := by omega
    have hv1 : b0 % 4 * 16 + b1 / 16 < 64 := by omega
    have hv2 : b1 % 16 * 4 + b2 / 64 < 64 := by omega
    have hv3 : b2 % 64 < 64 := by omega
    simp only [b64encode, b64decode, b64Val_b64Char _ hv0, b64Val_b64Char _ hv1,
      b64Val_b64Char _ hv2, b64Val_b64Char _ hv3, b64Char_ne_pad _ hv2,
      b64Char_ne_pad _ hv3, if_false, b64decode_b64encode rest hwr]
    have e0 : b0 / 4 * 4 + (b0 % 4 * 16 + b1 / 16) / 16 = b0 := by omega
    have e1 : (b0 % 4 * 16 + b1 / 16) % 16 * 16 + (b1 % 16 * 4 + b2 / 64) / 4
        = b1 := by omega
    have e2 : (b1 % 16 * 4 + b2 / 64) % 4 * 64 + b2 % 64 = b2 := by omega
    simp [e0, e1, e2]

theorem wfStr_b64encode (s : Str) : WfStr (b64encode s) := by
  intro b hb
  have := b64encode_mem s b hb
  omega

/-! ## Decimal rendering and parsing (Python `str`/`int`/`float` conversions)

Python `float` amounts are modelled as rationals rendered in plain decimal;
`intToDec`/`parseInt` model `str(int)`/`int(str)` and `ratToDec`/`parseRat`
model `str(float)`/`float(str)` on the decimal-representable range the
program traffics in. -/

/-- Decimal digits of a natural number, structurally recursive on a fuel
bound for the digit count (`n` itself always suffices). -/
def natToDecAux : Nat → Nat → Str
  | 0, n => [48 + n % 10]
  | fuel + 1, n =>
      if n < 10 then [48 + n] else natToDecAux fuel (n / 10) ++ [48 + n % 10]

/-- Decimal digits (ASCII bytes) of a natural number, as `str(n)` renders. -/
def natToDec (n : Nat) : Str := natToDecAux n n

theorem natToDecAux_fuel : ∀ fuel fuel2 n, n ≤ fuel → n ≤ fuel2 →
    natToDecAux fuel n = natToDecAux fuel2 n := by
  intro fuel
  induction fuel with
  | zero =>
    intro fuel2 n h1 _
    have hn : n = 0 := by omega
    subst hn
    cases fuel2 <;> simp [natToDecAux]
  | succ fuel ih =>
    intro fuel2 n h1 h2
    cases fuel2 with
    | zero =>
      have hn : n = 0 := by omega
      subst hn
      simp [natToDecAux]
    | succ fuel2 =>
      simp only [natToDecAux]
      by_cases h : n < 10
      · rw [if_pos h, if_pos h]
      · rw [if_neg h, if_neg h,
          ih fuel2 (n / 10) (by omega) (by omega)]

/-- The recursive unfolding that mirrors the digit loop directly. -/
theorem natToDec_eq (n : Nat) :
    natToDec n = if n < 10 then [48 + n]
      else natToDec (n / 10) ++ [48 + n % 10] := by
  unfold natToDec
  cases n with
  | zero => simp [natToDecAux]
  | succ m =>
    simp only [natToDecAux]
    by_cases h : m + 1 < 10
    · rw [if_pos h, if_pos h]
    · rw [if_neg h, if_neg h,
        natToDecAux_fuel m ((m + 1) / 10) ((m + 1) / 10) (by omega) le_rfl]

/-- Accumulating decimal parser over digit bytes; `none` on a non-digit. -/
def parseNatAux (acc : Nat) : Str → Option Nat
  | [] => some acc
  | c :: rest =>
      if 48 ≤ c ∧ c ≤ 57 then parseNatAux (acc * 10 + (c - 48)) rest else none

/-- Python `int(s)` for an unsigned decimal string (`ValueError` is `none`). -/
def parseNat (s : Str) : Option Nat :=
  if s = [] then none else parseNatAux 0 s

/-- Every byte of a decimal rendering is an ASCII digit. -/
theorem natToDec_digits : ∀ n, ∀ c ∈ natToDec n, 48 ≤ c ∧ c ≤ 57 := by
  intro n
  induction n using Nat.strong_induction_on with
  | _ n ih =>
    intro c hc
    rw [natToDec_eq] at hc
    split at hc
    · simp at hc; omega
    · rename_i h
      rw [List.mem_append] at hc
      rcases hc with h1 | h1
      · exact ih (n / 10) (Nat.div_lt_self (by omega) (by omega)) c h1
      · simp at h1; omega

theorem natToDec_ne_nil : ∀ n, natToDec n ≠ [] := by
  intro n
  rw [natToDec_eq]
  split <;> simp

theorem parseNatAux_append (a b : Str) (acc : Nat) :
    parseNatAux acc (a ++ b) =
      (parseNatAux acc a).bind (fun m => parseNatAux m b) := by
  induction a generalizing acc with
  | nil => simp [parseNatAux]
  | cons c rest ih =>
    simp only [List.cons_append, parseNatAux]
    split
    · exact ih _
    · simp

theorem parseNatAux_natToDec : ∀ n acc,
    parseNatAux acc (natToDec n) = some (acc * 10 ^ (natToDec n).length + n) := by
  intro n
  induction n using Nat.strong_induction_on with
  | _ n ih =>
    intro acc
    rw [natToDec_eq]
    split
    · rename_i h
      simp [parseNatAux]
      omega
    · rename_i h
      rw [parseNatAux_append]
      rw [ih (n / 10) (Nat.div_lt_self (by omega) (by omega)) acc]
      simp only [Option.some_bind, parseNatAux]
      rw [if_pos (by omega : 48 ≤ 48 + n % 10 ∧ 48 + n % 10 ≤ 57)]
      simp only [parseNatAux, Option.some_inj]
      rw [List.length_append, List.length_singleton, pow_succ]
      have hd : 48 + n % 10 - 48 = n % 10 := by omega
      rw [hd, Nat.add_mul, Nat.add_assoc]
      have hm : n / 10 * 10 + n % 10 = n := by omega
      rw [hm]
      ring

theorem parseNat_natToDec (n : Nat) : parseNat (natToDec n) = some n := by
  unfold parseNat
  rw [if_neg (natToDec_ne_nil n), parseNatAux_natToDec]
  simp

/-- Python `str(i)` for an integer. -/
def intToDec (i : Int) : Str :=
  if i < 0 then 45 :: natToDec (-i).toNat else natToDec i.toNat

/-- Python `int(s)` for a signed decimal string. -/
def parseInt : Str → Option Int
  | 45 :: rest => (parseNat rest).map (fun n => -(n : Int))
  | s => (parseNat s).map (fun n => (n : Int))

theorem parseInt_intToDec (i : Int) : parseInt (intToDec i) = some i := by
  unfold intToDec
  split
  · rename_i h
    simp only [parseInt, parseNat_natToDec]
    simp
    omega
  · rename_i h
    have hd := natToDec_digits i.toNat
    have : parseInt (natToDec i.toNat) = (parseNat (natToDec i.toNat)).map
        (fun n => (n : Int)) := by
      unfold parseInt
      split
      · rename_i heq
        exfalso
        have := hd 45 (by rw [heq]; simp)
        omega
      · rfl
    rw [this, parseNat_natToDec]
    simp
    omega

/-- Multiplicity of 2, structurally recursive on a fuel bound. -/
def count2Aux : Nat → Nat → Nat
  | 0, _ => 0
  | fuel + 1, d => if d % 2 = 0 ∧ d ≠ 0 then count2Aux fuel (d / 2) + 1 else 0

/-- Multiplicity of 2 in a natural number (0 at 0). -/
def count2 (d : Nat) : Nat := count2Aux d d

/-- Multiplicity of 5, structurally recursive on a fuel bound. -/
def count5Aux : Nat → Nat → Nat
  | 0, _ => 0
  | fuel + 1, d => if d % 5 = 0 ∧ d ≠ 0 then count5Aux fuel (d / 5) + 1 else 0

/-- Multiplicity of 5 in a natural number (0 at 0). -/
def count5 (d : Nat) : Nat := count5Aux d d

/-- Decimal exponent needed for a denominator of the form `2 ^ a * 5 ^ b`. -/
def decExp (d : Nat) : Nat := max (count2 d) (count5 d)

/-- A rational that the decimal rendering below represents exactly; the
numeric-semantics contract of the system guarantees this for every amount,
fee, reward and the wire decimal form is then lossless. -/
def DecimalRep (q : ℚ) : Prop := (q * 10 ^ decExp q.den).den = 1

instance (q : ℚ) : Decidable (DecimalRep q) := by
  unfold DecimalRep; infer_instance

/-- Digits padded with leading zeros to at least `k + 1` places. -/
def padTo (k : Nat) (ds : Str) : Str :=
  List.replicate (k + 1 - ds.length) 48 ++ ds

/-- Place a decimal point `k` digits from the right of the digits of `m`
(with a forced trailing `.0` when `k = 0`), giving the digits of
`m / 10 ^ k` as Python renders them. -/
def ratRender (k m : Nat) : Str :=
  if k = 0 then padTo k (natToDec m) ++ [46, 48]
  else (padTo k (natToDec m)).take ((padTo k (natToDec m)).length - k)
       ++ 46 :: (padTo k (natToDec m)).drop ((padTo k (natToDec m)).length - k)

/-- Decimal rendering of a nonnegative rational, as Python `str(float)`
renders the program's values (for example `10.0`, `0.5`, `1.25`). -/
def ratToDecNN (q : ℚ) : Str :=
  ratRender (decExp q.den) ((q * 10 ^ decExp q.den).num.toNat)

/-- Decimal rendering of a rational (`str(float)`), with sign. -/
def ratToDec (q : ℚ) : Str :=
  if q < 0 then 45 :: ratToDecNN (-q) else ratToDecNN q

/-- Break a byte string at the first occurrence of byte `b`. -/
def breakAtByte (b : Nat) : Str → Str × Option Str
  | [] => ([], none)
  | c :: rest =>
      if c = b then ([], some rest)
      else
        let p := breakAtByte b rest
        (c :: p.1, p.2)

/-- Integer and fractional parts of a broken decimal string. -/
def parseRatParts : Str × Option Str → Option ℚ
  | (a, none) => (parseNat a).map (fun n => (n : ℚ))
  | (a, some b) =>
    match parseNat a, parseNat b with
    | some ia, some fb => some ((ia : ℚ) + (fb : ℚ) / 10 ^ b.length)
    | _, _ => none

/-- Python `float(s)` on an unsigned plain decimal string. -/
def parseRatNN (s : Str) : Option ℚ :=
  parseRatParts (breakAtByte 46 s)

/-- Python `float(s)` on a signed plain decimal string. -/
def parseRat : Str → Option ℚ
  | 45 :: rest => (parseRatNN rest).map (fun x => -x)
  | s => parseRatNN s

theorem breakAtByte_append (b : Nat) :
    ∀ a s, b ∉ a → breakAtByte b (a ++ b :: s) = (a, some s) := by
  intro a
  induction a with
  | nil => intro s _; simp [breakAtByte]
  | cons c rest ih =>
    intro s hb
    simp only [List.mem_cons, not_or] at hb
    have hcb : ¬ c = b := fun h2 => hb.1 h2.symm
    simp only [List.cons_append, breakAtByte, if_neg hcb]
    rw [List.append_eq, ih s hb.2]

theorem breakAtByte_no_occ (b : Nat) :
    ∀ s, b ∉ s → breakAtByte b s = (s, none) := by
  intro s
  induction s with
  | nil => intro _; simp [breakAtByte]
  | cons c rest ih =>
    intro hb
    simp only [List.mem_cons, not_or] at hb
    have hcb : ¬ c = b := fun h2 => hb.1 h2.symm
    simp only [breakAtByte, if_neg hcb, ih hb.2]

/-- Value of a digit string, as the parser accumulates it. -/
def digitVal (s : Str) : Nat := s.foldl (fun a c => a * 10 + (c - 48)) 0

theorem parseNatAux_eq_foldl (s : Str) :
    ∀ acc, (∀ c ∈ s, 48 ≤ c ∧ c ≤ 57) →
      parseNatAux acc s = some (s.foldl (fun a c => a * 10 + (c - 48)) acc) := by
  induction s with
  | nil => intro acc _; simp [parseNatAux]
  | cons c rest ih =>
    intro acc hd
    have hc := hd c (by simp)
    simp only [parseNatAux, if_pos hc, List.foldl_cons]
    exact ih _ (fun x hx => hd x (by simp [hx]))

theorem foldl_digits_acc (s : Str) :
    ∀ acc, s.foldl (fun a c => a * 10 + (c - 48)) acc
      = acc * 10 ^ s.length + digitVal s := by
  induction s with
  | nil => intro acc; simp [digitVal]
  | cons c rest ih =>
    intro acc
    simp only [List.foldl_cons, digitVal, List.length_cons]
    rw [ih (acc * 10 + (c - 48))]
    have h0 : (0 : Nat) * 10 + (c - 48) = c - 48 := by omega
    rw [h0, ih (c - 48), pow_succ]
    ring

theorem parseNatAux_zeros (j : Nat) (s : Str) :
    parseNatAux 0 (List.replicate j 48 ++ s) = parseNatAux 0 s := by
  induction j with
  | zero => simp
  | succ n ih =>
    rw [List.replicate_succ]
    simp only [List.cons_append, parseNatAux]
    norm_num
    exact ih

theorem parseNat_digits (s : Str) (hne : s ≠ [])
    (hd : ∀ c ∈ s, 48 ≤ c ∧ c ≤ 57) : parseNat s = some (digitVal s) := by
  rw [parseNat, if_neg hne, parseNatAux_eq_foldl s 0 hd]
  rfl

theorem digitVal_append (a b : Str) :
    digitVal (a ++ b) = digitVal a * 10 ^ b.length + digitVal b := by
  unfold digitVal
  rw [List.foldl_append, foldl_digits_acc]
  rfl


theorem parseRatNN_ratRender (k m : Nat) :
    parseRatNN (ratRender k m) = some ((m : ℚ) / 10 ^ k) := by
  have hds_digits : ∀ c ∈ natToDec m, 48 ≤ c ∧ c ≤ 57 := natToDec_digits m
  have hds_len : 1 ≤ (natToDec m).length :=
    List.length_pos.mpr (natToDec_ne_nil m)
  set ds := natToDec m with hds
  have hpd_digits : ∀ c ∈ padTo k ds, 48 ≤ c ∧ c ≤ 57 := by
    intro c hc
    rw [padTo, List.mem_append] at hc
    rcases hc with h | h
    · rw [List.eq_of_mem_replicate h]; omega
    · exact hds_digits c h
  have hpd_len : k + 1 ≤ (padTo k ds).length := by
    rw [padTo, List.length_append, List.length_replicate]
    omega
  have hpd_val : parseNatAux 0 (padTo k ds) = some m := by
    rw [padTo, parseNatAux_zeros]
    have h1 := parseNat_natToDec m
    rw [parseNat, if_neg (natToDec_ne_nil m)] at h1
    exact h1
  by_cases hk0 : k = 0
  · subst hk0
    have hpdds : padTo 0 ds = ds := by
      rw [padTo, show 0 + 1 - ds.length = 0 by omega]
      simp
    rw [ratRender, if_pos rfl, parseRatNN, hpdds,
        breakAtByte_append 46 ds [48]
          (fun hmem => by have := hds_digits 46 hmem; omega)]
    have hvds : parseNat ds = some m := by
      rw [parseNat_digits ds (natToDec_ne_nil m) hds_digits]
      rw [hpdds] at hpd_val
      rw [parseNatAux_eq_foldl ds 0 hds_digits] at hpd_val
      simpa [digitVal] using hpd_val
    have h48 : parseNat [48] = some 0 := by simp [parseNat, parseNatAux]
    simp [parseRatParts, hvds, h48]
  · rw [ratRender, if_neg hk0, parseRatNN]
    set pd := padTo k ds with hpd
    set a := pd.take (pd.length - k) with ha
    set b := pd.drop (pd.length - k) with hb
    have hab : a ++ b = pd := by rw [ha, hb]; simp
    have hbl : b.length = k := by rw [hb, List.length_drop]; omega
    have hal : 1 ≤ a.length := by
      rw [ha, List.length_take]
      omega
    have ha_digits : ∀ c ∈ a, 48 ≤ c ∧ c ≤ 57 := by
      intro c hc
      exact hpd_digits c (by rw [← hab]; exact List.mem_append_left _ hc)
    have hb_digits : ∀ c ∈ b, 48 ≤ c ∧ c ≤ 57 := by
      intro c hc
      exact hpd_digits c (by rw [← hab]; exact List.mem_append_right _ hc)
    rw [breakAtByte_append 46 a b
      (fun hmem => by have := ha_digits 46 hmem; omega)]
    have hva : parseNat a = some (digitVal a) :=
      parseNat_digits a (List.ne_nil_of_length_pos (by omega)) ha_digits
    have hvb : parseNat b = some (digitVal b) :=
      parseNat_digits b (List.ne_nil_of_length_pos (by omega)) hb_digits
    have hsum : digitVal a * 10 ^ k + digitVal b = m := by
      have h1 : parseNatAux 0 (a ++ b) = some m := by rw [hab]; exact hpd_val
      rw [parseNatAux_eq_foldl _ 0 (by
        intro c hc
        rw [List.mem_append] at hc
        rcases hc with h | h
        · exact ha_digits c h
        · exact hb_digits c h)] at h1
      have h2 : (a ++ b).foldl (fun x c => x * 10 + (c - 48)) 0
          = digitVal (a ++ b) := rfl
      rw [h2, digitVal_append, hbl] at h1
      exact Option.some_inj.mp h1
    simp only [parseRatParts, hva, hvb, hbl]
    have h10 : (10 : ℚ) ^ k ≠ 0 := by positivity
    have hmcast : (m : ℚ) = (digitVal a : ℚ) * 10 ^ k + (digitVal b : ℚ) := by
      rw [← hsum]
      push_cast
      ring
    rw [hmcast]
    field_simp

theorem parseRatNN_ratToDecNN (q : ℚ) (h0 : 0 ≤ q) (hq : DecimalRep q) :
    parseRatNN (ratToDecNN q) = some q := by
  rw [ratToDecNN, parseRatNN_ratRender]
  set k := decExp q.den with hk
  have hden : (q * 10 ^ k).den = 1 := hq
  have hnn : 0 ≤ (q * 10 ^ k).num := by
    rw [Rat.num_nonneg]
    positivity
  have hnum : ((q * 10 ^ k).num : ℚ) = q * 10 ^ k := by
    conv_rhs => rw [← Rat.num_div_den (q * 10 ^ k)]
    rw [hden]
    simp
  have hmq : (((q * 10 ^ k).num.toNat : ℕ) : ℚ) = q * 10 ^ k := by
    have h2 : (((q * 10 ^ k).num.toNat : ℤ) : ℚ) = q * 10 ^ k := by
      rw [Int.toNat_of_nonneg hnn]
      exact hnum
    exact_mod_cast h2
  rw [hmq]
  have h10 : (10 : ℚ) ^ k ≠ 0 := by positivity
  field_simp

theorem ratRender_mem (k m : Nat) : ∀ c ∈ ratRender k m, 46 ≤ c ∧ c ≤ 57 := by
  intro c hc
  have hpd : ∀ x ∈ padTo k (natToDec m), 48 ≤ x ∧ x ≤ 57 := by
    intro x hx
    rw [padTo, List.mem_append] at hx
    rcases hx with h | h
    · rw [List.eq_of_mem_replicate h]; omega
    · exact natToDec_digits m x h
  rw [ratRender] at hc
  split at hc
  · rw [List.mem_append] at hc
    rcases hc with h | h
    · have := hpd c h; omega
    · simp at h; omega
  · rw [List.mem_append] at hc
    rcases hc with h | h
    · have := hpd c (List.mem_of_mem_take h); omega
    · rw [List.mem_cons] at h
      rcases h with h | h
      · omega
      · have := hpd c (List.mem_of_mem_drop h); omega

theorem ratToDecNN_mem (q : ℚ) : ∀ c ∈ ratToDecNN q, 46 ≤ c ∧ c ≤ 57 := by
  rw [ratToDecNN]
  exact ratRender_mem _ _

theorem ratToDec_mem (q : ℚ) : ∀ c ∈ ratToDec q, 45 ≤ c ∧ c ≤ 57 := by
  intro c hc
  rw [ratToDec] at hc
  split at hc
  · rw [List.mem_cons] at hc
    rcases hc with h | h
    · omega
    · have := ratToDecNN_mem _ c h; omega
  · have := ratToDecNN_mem _ c hc; omega

theorem parseRat_ratToDec (q : ℚ) (hq : DecimalRep q) :
    parseRat (ratToDec q) = some q := by
  rw [ratToDec]
  by_cases hneg : q < 0
  · rw [if_pos hneg]
    have hdup : DecimalRep (-q) := by
      unfold DecimalRep at hq ⊢
      rw [Rat.neg_den, neg_mul, Rat.neg_den]
      exact hq
    have h1 : parseRatNN (ratToDecNN (-q)) = some (-q) :=
      parseRatNN_ratToDecNN (-q) (by linarith) hdup
    simp [parseRat, h1]
  · rw [if_neg hneg]
    have h1 : parseRatNN (ratToDecNN q) = some q :=
      parseRatNN_ratToDecNN q (by linarith) hq
    have hform : parseRat (ratToDecNN q) = parseRatNN (ratToDecNN q) := by
      unfold parseRat
      split
      · rename_i rest heq
        exfalso
        have h45 : (45 : Nat) ∈ ratToDecNN q := by rw [heq]; simp
        have := ratToDecNN_mem q 45 h45
        omega
      · rfl
    rw [hform, h1]

/-! ## Splitting and joining (Python `", ".join`, `split(", ")`, `split(":", 1)`) -/

/-- Python `", ".join(parts)` over byte strings (44 is `,`, 32 is space). -/
def joinCS : List Str → Str
  | [] => []
  | [p] => p
  | p :: rest => p ++ 44 :: 32 :: joinCS rest

/-- Python `s.split(", ")`: greedy left-to-right split on the two-byte
separator. -/
def splitCS : Str → List Str
  | [] => [[]]
  | [c] => [[c]]
  | c :: d :: rest =>
      if c = 44 ∧ d = 32 then [] :: splitCS rest
      else
        match splitCS (d :: rest) with
        | [] => [[c]]
        | p :: ps => (c :: p) :: ps

theorem splitCS_no_comma : ∀ p : Str, 44 ∉ p → splitCS p = [p]
  | [], _ => rfl
  | [c], _ => rfl
  | c :: d :: rest, h => by
    have hc2 : c ≠ 44 := fun hce => h (by rw [hce]; simp)
    have hc : ¬(c = 44 ∧ d = 32) := fun hcd => hc2 hcd.1
    have hrest : (44 : Nat) ∉ d :: rest := by
      intro hm
      exact h (List.mem_cons_of_mem c hm)
    simp only [splitCS, if_neg hc, splitCS_no_comma (d :: rest) hrest]

theorem splitCS_append_sep : ∀ p j : Str, 44 ∉ p →
    splitCS (p ++ 44 :: 32 :: j) = p :: splitCS j
  | [], j, _ => by
    show splitCS (44 :: 32 :: j) = [] :: splitCS j
    rw [splitCS]
    simp
  | [c], j, h => by
    have hc2 : c ≠ 44 := fun hce => h (by rw [hce]; simp)
    have hc : ¬(c = 44 ∧ (44 : Nat) = 32) := fun hcd => hc2 hcd.1
    show splitCS (c :: 44 :: 32 :: j) = [c] :: splitCS j
    rw [splitCS, if_neg hc]
    have h2 : splitCS (44 :: 32 :: j) = [] :: splitCS j := by
      rw [splitCS]
      simp
    rw [h2]
  | c :: d :: rest, j, h => by
    have hc2 : c ≠ 44 := fun hce => h (by rw [hce]; simp)
    have hc : ¬(c = 44 ∧ d = 32) := fun hcd => hc2 hcd.1
    have hrest : (44 : Nat) ∉ d :: rest := fun hm =>
      h (List.mem_cons_of_mem c hm)
    show splitCS (c :: d :: (rest ++ 44 :: 32 :: j))
      = (c :: d :: rest) :: splitCS j
    rw [splitCS, if_neg hc]
    have h2 : splitCS (d :: (rest ++ 44 :: 32 :: j))
        = (d :: rest) :: splitCS j :=
      splitCS_append_sep (d :: rest) j hrest
    rw [h2]

theorem splitCS_joinCS (parts : List Str) : parts ≠ [] →
    (∀ p ∈ parts, 44 ∉ p) → splitCS (joinCS parts) = parts := by
  induction parts with
  | nil => intro h _; exact absurd rfl h
  | cons p rest ih =>
    intro _ hp
    cases rest with
    | nil => rw [joinCS, splitCS_no_comma p (hp p (by simp))]
    | cons p2 rest2 =>
      rw [joinCS, splitCS_append_sep p (joinCS (p2 :: rest2)) (hp p (by simp))]
      have hne : p2 :: rest2 ≠ [] := by intro hco; cases hco
      rw [ih hne (fun x hx => hp x (List.mem_cons_of_mem p hx))]
      intro hco
      cases hco

theorem intToDec_mem (i : Int) : ∀ c ∈ intToDec i, 45 ≤ c ∧ c ≤ 57 := by
  intro c hc
  rw [intToDec] at hc
  split at hc
  · rw [List.mem_cons] at hc
    rcases hc with h | h
    · omega
    · have := natToDec_digits _ c h; omega
  · have := natToDec_digits _ c hc; omega

/-! ## Configuration (config/blockchain_config.py, config/security_config.py) -/

namespace BlockchainConfig

def ADJUST_DIFFICULTY_IN_EVERY : Nat := 10

def INIT_DIFFICULTY : Int := 1

def BLOCK_TIME_IN_EVERY : Nat := 30

def MINING_REWARDS : ℚ := 10

def MAX_TRANSACTIONS_IN_BLOCK : Nat := 32

end BlockchainConfig

namespace SecurityConfig

def PUBLIC_KEY_LENGTH : Nat := 1024

end SecurityConfig

/-- Result of `Security.detect_address_type` (tools/security.py): the key
format recognized in an address string, or UNKNOWN.  The DER/JSON probing
itself is an external-crypto concern, so the detector is a parameter
`detect : Str → AddrType` throughout. -/
inductive AddrType where
  | RSA | ECDSA | DPECDSA | UNKNOWN
deriving DecidableEq

namespace Security

/-- tools/security.py `get_expected_signature_length`: RSA (and the UNKNOWN
fallback) use `PUBLIC_KEY_LENGTH // 8` bytes; ECDSA 64; DPECDSA 96. -/
def get_expected_signature_length (detect : Str → AddrType)
    (address : Str) : Nat :=
  match detect address with
  | AddrType.RSA => SecurityConfig.PUBLIC_KEY_LENGTH / 8
  | AddrType.ECDSA => 64
  | AddrType.DPECDSA => 96
  | AddrType.UNKNOWN => SecurityConfig.PUBLIC_KEY_LENGTH / 8

/-- tools/security.py `validate_signature_format`: base64-decode the
signature (an exception yields `False`) and compare its byte length with
the expected length for the address. -/
def validate_signature_format (detect : Str → AddrType)
    (address encoded_signature : Str) : Bool :=
  match b64decode encoded_signature with
  | none => false
  | some sig_bytes =>
      sig_bytes.length = get_expected_signature_length detect address

end Security

/-! ## Transaction (blockchain_types/transaction.py) -/

structure Transaction where
  sender : Str
  receiver : Str
  amount : ℚ
  fee : ℚ
  timestamp : Int
  message : Str
  signature : Str
deriving DecidableEq

/-- One `name:value` field of the canonical textual frame (58 is `:`). -/
def attrF (n : String) (v : Str) : Str := ascii n ++ 58 :: v

namespace Transaction

/-- transaction.py `to_base64`: the canonical full encoding, field values
base64-encoded (`Converter.string_to_base64`), numbers decimal-rendered
first. -/
def to_base64 (t : Transaction) : Str :=
  ascii "Transaction [" ++ joinCS [
    attrF "sender" (b64encode t.sender),
    attrF "receiver" (b64encode t.receiver),
    attrF "amount" (b64encode (ratToDec t.amount)),
    attrF "fee" (b64encode (ratToDec t.fee)),
    attrF "timestamp" (b64encode (intToDec t.timestamp)),
    attrF "message" (b64encode t.message),
    attrF "signature" (b64encode t.signature)] ++ ascii "]"

/-- transaction.py `to_base64_with_content_only`: same frame without the
`signature` field; this is what gets signed. -/
def to_base64_with_content_only (t : Transaction) : Str :=
  ascii "Transaction [" ++ joinCS [
    attrF "sender" (b64encode t.sender),
    attrF "receiver" (b64encode t.receiver),
    attrF "amount" (b64encode (ratToDec t.amount)),
    attrF "fee" (b64encode (ratToDec t.fee)),
    attrF "timestamp" (b64encode (intToDec t.timestamp)),
    attrF "message" (b64encode t.message)] ++ ascii "]"

/-- transaction.py `to_hash`: digest of the full encoding (the signature
field included); `H` is the digest provider. -/
def to_hash (H : Str → Str) (t : Transaction) : Str := H t.to_base64

/-- transaction.py `to_hash_with_content_only`: the content digest. -/
def to_hash_with_content_only (H : Str → Str) (t : Transaction) : Str :=
  H t.to_base64_with_content_only

end Transaction

/-- The pre-restoration record for decoding: Python assigns attributes as
the loop meets them, and every encoding the system produces carries all
fields, so unset fields are never observed; the zero record stands
for the attribute-less fresh object. -/
def emptyTransaction : Transaction :=
  { sender := [], receiver := [], amount := 0, fee := 0, timestamp := 0,
    message := [], signature := [] }

/-- The field-name dispatch of transaction.py `from_base64`: known field
names assign the decoded value (a decode failure raises, modelled `none`);
unknown names are ignored. -/
def txSetField (t : Transaction) (item value : Str) : Option Transaction :=
  if item = ascii "sender" then
    (b64decode value).map (fun s => { t with sender := s })
  else if item = ascii "receiver" then
    (b64decode value).map (fun s => { t with receiver := s })
  else if item = ascii "amount" then
    (b64decode value).bind
      (fun s => (parseRat s).map (fun q => { t with amount := q }))
  else if item = ascii "fee" then
    (b64decode value).bind
      (fun s => (parseRat s).map (fun q => { t with fee := q }))
  else if item = ascii "timestamp" then
    (b64decode value).bind
      (fun s => (parseInt s).map (fun n => { t with timestamp := n }))
  else if item = ascii "message" then
    (b64decode value).map (fun s => { t with message := s })
  else if item = ascii "signature" then
    (b64decode value).map (fun s => { t with signature := s })
  else some t

/-- One iteration of the `for attribute in attributes` loop of
transaction.py `from_base64`: split at the first `:`; a missing `:` means
continue. -/
def txApplyAttr (t : Transaction) (a : Str) : Option Transaction :=
  match breakAtByte 58 a with
  | (_, none) => some t
  | (item, some value) => txSetField t item value

/-- transaction.py `from_base64`: strip `Transaction [` and `]`, split the
attributes on `", "`, and fold the assignment loop.  (The source then runs
`_validate_addresses` and returns its verdict, but every constructor
discards that return value and keeps the restored object, so the
restoration itself is the observable behaviour.) -/
def Transaction.from_base64 (s : Str) : Option Transaction :=
  ((splitCS ((s.drop 13).dropLast)).foldlM txApplyAttr emptyTransaction)

theorem wfStr_ratToDec (q : ℚ) : WfStr (ratToDec q) := by
  intro c hc
  have := ratToDec_mem q c hc
  omega

theorem wfStr_intToDec (i : Int) : WfStr (intToDec i) := by
  intro c hc
  have := intToDec_mem i c hc
  omega

theorem txApplyAttr_eq (t : Transaction) (n : String) (v : Str)
    (hn : (58 : Nat) ∉ ascii n) :
    txApplyAttr t (attrF n v) = txSetField t (ascii n) v := by
  unfold txApplyAttr attrF
  rw [breakAtByte_append 58 (ascii n) v hn]

theorem txApplyAttr_sender (t : Transaction) (v : Str) (hv : WfStr v) :
    txApplyAttr t (attrF "sender" (b64encode v))
      = some { t with sender := v } := by
  rw [txApplyAttr_eq t "sender" _ (by decide)]
  unfold txSetField
  rw [if_pos rfl, b64decode_b64encode v hv]
  rfl

theorem txApplyAttr_receiver (t : Transaction) (v : Str) (hv : WfStr v) :
    txApplyAttr t (attrF "receiver" (b64encode v))
      = some { t with receiver := v } := by
  rw [txApplyAttr_eq t "receiver" _ (by decide)]
  unfold txSetField
  rw [if_neg (by decide), if_pos rfl, b64decode_b64encode v hv]
  rfl

theorem txApplyAttr_amount (t : Transaction) (q : ℚ) (hq : DecimalRep q) :
    txApplyAttr t (attrF "amount" (b64encode (ratToDec q)))
      = some { t with amount := q } := by
  rw [txApplyAttr_eq t "amount" _ (by decide)]
  unfold txSetField
  rw [if_neg (by decide), if_neg (by decide), if_pos rfl,
    b64decode_b64encode _ (wfStr_ratToDec q)]
  simp only [Option.some_bind]
  rw [parseRat_ratToDec q hq]
  rfl

theorem txApplyAttr_fee (t : Transaction) (q : ℚ) (hq : DecimalRep q) :
    txApplyAttr t (attrF "fee" (b64encode (ratToDec q)))
      = some { t with fee := q } := by
  rw [txApplyAttr_eq t "fee" _ (by decide)]
  unfold txSetField
  rw [if_neg (by decide), if_neg (by decide), if_neg (by decide), if_pos rfl,
    b64decode_b64encode _ (wfStr_ratToDec q)]
  simp only [Option.some_bind]
  rw [parseRat_ratToDec q hq]
  rfl

theorem txApplyAttr_timestamp (t : Transaction) (i : Int) :
    txApplyAttr t (attrF "timestamp" (b64encode (intToDec i)))
      = some { t with timestamp := i } := by
  rw [txApplyAttr_eq t "timestamp" _ (by decide)]
  unfold txSetField
  rw [if_neg (by decide), if_neg (by decide), if_neg (by decide),
    if_neg (by decide), if_pos rfl, b64decode_b64encode _ (wfStr_intToDec i)]
  simp only [Option.some_bind]
  rw [parseInt_intToDec i]
  rfl

theorem txApplyAttr_message (t : Transaction) (v : Str) (hv : WfStr v) :
    txApplyAttr t (attrF "message" (b64encode v))
      = some { t with message := v } := by
  rw [txApplyAttr_eq t "message" _ (by decide)]
  unfold txSetField
  rw [if_neg (by decide), if_neg (by decide), if_neg (by decide),
    if_neg (by decide), if_neg (by decide), if_pos rfl,
    b64decode_b64encode v hv]
  rfl

theorem txApplyAttr_signature (t : Transaction) (v : Str) (hv : WfStr v) :
    txApplyAttr t (attrF "signature" (b64encode v))
      = some { t with signature := v } := by
  rw [txApplyAttr_eq t "signature" _ (by decide)]
  unfold txSetField
  rw [if_neg (by decide), if_neg (by decide), if_neg (by decide),
    if_neg (by decide), if_neg (by decide), if_neg (by decide), if_pos rfl,
    b64decode_b64encode v hv]
  rfl

theorem attrF_b64_no_comma (n : String) (v : Str)
    (hn : (44 : Nat) ∉ ascii n) : (44 : Nat) ∉ attrF n (b64encode v) := by
  intro hc
  rw [attrF, List.mem_append, List.mem_cons] at hc
  rcases hc with h | h | h
  · exact hn h
  · omega
  · exact (b64encode_mem v 44 h).2.1 rfl

theorem optFoldlM_cons {α β : Type} (f : α → β → Option α) (d : α) (x : β) (xs : List β) :
    List.foldlM f d (x :: xs)
      = (f d x).bind (fun d2 => List.foldlM f d2 xs) := by
  rfl

/-- Well-formedness of a transaction value the system produces: string
fields are byte strings and numeric fields are decimal-representable. -/
def WfTransaction (t : Transaction) : Prop :=
  WfStr t.sender ∧ WfStr t.receiver ∧ WfStr t.message ∧ WfStr t.signature ∧
  DecimalRep t.amount ∧ DecimalRep t.fee

instance (t : Transaction) : Decidable (WfTransaction t) := by
  unfold WfTransaction; infer_instance

theorem tx_attrs_no_comma (t : Transaction) :
    ∀ p ∈ [attrF "sender" (b64encode t.sender),
      attrF "receiver" (b64encode t.receiver),
      attrF "amount" (b64encode (ratToDec t.amount)),
      attrF "fee" (b64encode (ratToDec t.fee)),
      attrF "timestamp" (b64encode (intToDec t.timestamp)),
      attrF "message" (b64encode t.message),
      attrF "signature" (b64encode t.signature)], (44 : Nat) ∉ p := by
  intro p hp
  simp only [List.mem_cons, List.not_mem_nil, or_false] at hp
  rcases hp with h | h | h | h | h | h | h <;> subst h <;>
    exact attrF_b64_no_comma _ _ (by decide)

theorem Transaction.from_base64_to_base64 (t : Transaction)
    (hwf : WfTransaction t) :
    Transaction.from_base64 t.to_base64 = some t := by
  obtain ⟨hs, hr, hm, hg, ha, hf⟩ := hwf
  unfold Transaction.from_base64 Transaction.to_base64
  rw [List.append_assoc]
  rw [show (13 : Nat) = (ascii "Transaction [").length from rfl,
    List.drop_left]
  rw [show ascii "]" = [93] from rfl]
  rw [List.dropLast_concat]
  rw [splitCS_joinCS _ (by intro hco; cases hco) (tx_attrs_no_comma t)]
  rw [optFoldlM_cons, txApplyAttr_sender _ _ hs]
  simp only [Option.some_bind]
  rw [optFoldlM_cons, txApplyAttr_receiver _ _ hr]
  simp only [Option.some_bind]
  rw [optFoldlM_cons, txApplyAttr_amount _ _ ha]
  simp only [Option.some_bind]
  rw [optFoldlM_cons, txApplyAttr_fee _ _ hf]
  simp only [Option.some_bind]
  rw [optFoldlM_cons, txApplyAttr_timestamp _ t.timestamp]
  simp only [Option.some_bind]
  rw [optFoldlM_cons, txApplyAttr_message _ _ hm]
  simp only [Option.some_bind]
  rw [optFoldlM_cons, txApplyAttr_signature _ _ hg]
  simp only [Option.some_bind]
  rfl

/-! ## Merkle tree (blockchain_types/transaction_merkle_tree.py)

The `_build_tree` while-loop combines the current level pairwise, hashing
an unpaired trailing node with itself, until one node remains; only the
root hash is observable, so the model folds levels of hashes. -/

/-- One level of `_build_tree`: `left.hash + right.hash` digested, the odd
trailing node duplicated (`right = left`). -/
def buildLevel (H : Str → Str) : List Str → List Str
  | [] => []
  | [x] => [H (x ++ x)]
  | x :: y :: rest => H (x ++ y) :: buildLevel H rest

theorem buildLevel_length (H : Str → Str) :
    ∀ l : List Str, (buildLevel H l).length = (l.length + 1) / 2
  | [] => by simp [buildLevel]
  | [x] => by simp [buildLevel]
  | x :: y :: rest => by
    simp [buildLevel, buildLevel_length H rest]
    omega

/-- The while-loop of `_build_tree`, structurally recursive on a fuel
bound for the number of levels (the level length always suffices). -/
def merkleLoopAux (H : Str → Str) : Nat → List Str → Str
  | _, [] => H []
  | _, [x] => x
  | 0, x :: _ :: _ => x
  | fuel + 1, x :: y :: rest => merkleLoopAux H fuel (buildLevel H (x :: y :: rest))

/-- The while-loop of `_build_tree` on a level of hashes; on the empty
level it returns the empty-tree root `H []` that `get_merkle_root` yields
(digest of the empty string). -/
def merkleLoop (H : Str → Str) (l : List Str) : Str :=
  merkleLoopAux H l.length l

theorem merkleLoopAux_fuel (H : Str → Str) : ∀ fuel fuel2 l,
    l.length ≤ fuel + 1 → l.length ≤ fuel2 + 1 →
    merkleLoopAux H fuel l = merkleLoopAux H fuel2 l := by
  intro fuel
  induction fuel with
  | zero =>
    intro fuel2 l h1 _
    match l with
    | [] => cases fuel2 <;> rfl
    | [x] => cases fuel2 <;> rfl
    | x :: y :: rest => simp at h1
  | succ fuel ih =>
    intro fuel2 l h1 h2
    match l with
    | [] => cases fuel2 <;> rfl
    | [x] => cases fuel2 <;> rfl
    | x :: y :: rest =>
      cases fuel2 with
      | zero => simp at h2
      | succ fuel2 =>
        simp only [merkleLoopAux]
        refine ih fuel2 (buildLevel H (x :: y :: rest)) ?_ ?_ <;>
          · rw [buildLevel_length]
            simp at h1 h2 ⊢
            omega

theorem merkleLoop_nil (H : Str → Str) : merkleLoop H [] = H [] := rfl

theorem merkleLoop_single (H : Str → Str) (x : Str) :
    merkleLoop H [x] = x := rfl

theorem merkleLoop_pair (H : Str → Str) (x y : Str) (rest : List Str) :
    merkleLoop H (x :: y :: rest)
      = merkleLoop H (buildLevel H (x :: y :: rest)) := by
  unfold merkleLoop
  have h1 : (x :: y :: rest).length = rest.length + 2 := by simp
  rw [h1]
  simp only [merkleLoopAux]
  refine merkleLoopAux_fuel H (rest.length + 1)
    (buildLevel H (x :: y :: rest)).length _ ?_ ?_ <;>
    · rw [buildLevel_length]
      simp only [List.length_cons]
      omega

namespace TransactionMerkleTree

/-- transaction_merkle_tree.py: leaves are `transaction.to_hash()` (the
digest of the FULL encoding, signature included), and `get_merkle_root`
returns the root, or the digest of the empty string for no transactions. -/
def get_merkle_root (H : Str → Str) (transactions : List Transaction) : Str :=
  merkleLoop H (transactions.map (Transaction.to_hash H))

end TransactionMerkleTree

/-! ## Block (blockchain_types/block.py) -/

structure Block where
  previous_hash : Str
  hash : Str
  difficulty : Int
  nonce : Int
  timestamp : Int
  transactions : List Transaction
  miner : Str
  miner_rewards : ℚ
deriving DecidableEq

namespace Block

/-- block.py `get_merkle_root`, the value `self.merkle_tree` holds
WHENEVER the attribute is set: the non-decoding constructor and every
successful `add_transaction` assign `TransactionMerkleTree(self.transactions)`,
so a set attribute always equals this derived value.  `from_base64` only
assigns it through `add_transaction`, so a block decoded with zero
transactions leaves the attribute unset and this accessor raises
`AttributeError` in the source; that presence bit is not derivable from
the record and is threaded separately (the `merkle_set` argument of
`receive_block`). -/
def get_merkle_root (H : Str → Str) (b : Block) : Str :=
  TransactionMerkleTree.get_merkle_root H b.transactions

/-- block.py `to_base64`: full canonical encoding.  Each transaction is
encoded, that encoding base64-encoded once more, the results joined with
`", "`, and the joined string base64-encoded into the field. -/
def to_base64 (H : Str → Str) (b : Block) : Str :=
  ascii "Block [" ++ joinCS [
    attrF "previousHash" (b64encode b.previous_hash),
    attrF "hash" (b64encode b.hash),
    attrF "difficulty" (b64encode (intToDec b.difficulty)),
    attrF "nonce" (b64encode (intToDec b.nonce)),
    attrF "timestamp" (b64encode (intToDec b.timestamp)),
    attrF "transactions" (b64encode (joinCS
      (b.transactions.map (fun t => b64encode t.to_base64)))),
    attrF "merkleTree" (b64encode (b.get_merkle_root H)),
    attrF "miner" (b64encode b.miner),
    attrF "minerRewards" (b64encode (ratToDec b.miner_rewards))] ++ ascii "]"

/-- block.py `to_base64_with_content_only`: the seal encoding, without the
`hash` field.  NOTE the source builds the transactions field from
`t.to_base64()` directly (no inner `string_to_base64` wrap), unlike
`to_base64`. -/
def to_base64_with_content_only (H : Str → Str) (b : Block) : Str :=
  ascii "Block [" ++ joinCS [
    attrF "previousHash" (b64encode b.previous_hash),
    attrF "difficulty" (b64encode (intToDec b.difficulty)),
    attrF "nonce" (b64encode (intToDec b.nonce)),
    attrF "timestamp" (b64encode (intToDec b.timestamp)),
    attrF "transactions" (b64encode (joinCS
      (b.transactions.map (fun t => t.to_base64)))),
    attrF "merkleTree" (b64encode (b.get_merkle_root H)),
    attrF "miner" (b64encode b.miner),
    attrF "minerRewards" (b64encode (ratToDec b.miner_rewards))] ++ ascii "]"

/-- block.py `to_hash`. -/
def to_hash (H : Str → Str) (b : Block) : Str := H (b.to_base64 H)

/-- block.py `to_hash_with_content_only`: the seal digest used for
mining and block validation. -/
def to_hash_with_content_only (H : Str → Str) (b : Block) : Str :=
  H (b.to_base64_with_content_only H)

end Block

/-- block.py `add_transaction` on the transaction list: reject (leave the
list unchanged) when a transaction with the same full digest is present,
append otherwise. -/
def addTransaction (H : Str → Str) (txs : List Transaction)
    (new_transaction : Transaction) : List Transaction :=
  if txs.any (fun t => t.to_hash H = new_transaction.to_hash H) then txs
  else txs ++ [new_transaction]

/-- The pre-restoration block record (`self.transactions = []` before the
loop; other attributes as assigned by the loop). -/
def emptyBlock : Block :=
  { previous_hash := [], hash := [], difficulty := 0, nonce := 0,
    timestamp := 0, transactions := [], miner := [], miner_rewards := 0 }

/-- The field-name dispatch of block.py `from_base64`, in source order;
`merkleTree` is deliberately ignored (recalculated); the transactions
field splits the decoded join and restores each transaction through
`add_transaction` (digest dedup). -/
def blkSetField (H : Str → Str) (b : Block) (item value : Str) :
    Option Block :=
  if item = ascii "previousHash" then
    (b64decode value).map (fun s => { b with previous_hash := s })
  else if item = ascii "hash" then
    (b64decode value).map (fun s => { b with hash := s })
  else if item = ascii "difficulty" then
    (b64decode value).bind
      (fun s => (parseInt s).map (fun n => { b with difficulty := n }))
  else if item = ascii "nonce" then
    (b64decode value).bind
      (fun s => (parseInt s).map (fun n => { b with nonce := n }))
  else if item = ascii "timestamp" then
    (b64decode value).bind
      (fun s => (parseInt s).map (fun n => { b with timestamp := n }))
  else if item = ascii "miner" then
    (b64decode value).map (fun s => { b with miner := s })
  else if item = ascii "minerRewards" then
    (b64decode value).bind
      (fun s => (parseRat s).map (fun q => { b with miner_rewards := q }))
  else if item = ascii "transactions" then
    (b64decode value).bind (fun decoded =>
      if decoded = [] then some b
      else
        ((splitCS decoded).foldlM (fun txs enc =>
            (b64decode enc).bind (fun dec =>
              (Transaction.from_base64 dec).map
                (fun tx => addTransaction H txs tx))) b.transactions).map
          (fun txs => { b with transactions := txs }))
  else if item = ascii "merkleTree" then some b
  else some b

/-- One iteration of the attribute loop of block.py `from_base64`. -/
def blkApplyAttr (H : Str → Str) (b : Block) (a : Str) : Option Block :=
  match breakAtByte 58 a with
  | (_, none) => some b
  | (item, some value) => blkSetField H b item value

/-- block.py `from_base64`: strip `Block [` and `]`, split on `", "`,
fold the assignment loop from the fresh record. -/
def Block.from_base64 (H : Str → Str) (s : Str) : Option Block :=
  ((splitCS ((s.drop 7).dropLast)).foldlM (blkApplyAttr H) emptyBlock)

theorem joinCS_cons_cons (p p2 : Str) (rest : List Str) :
    joinCS (p :: p2 :: rest) = p ++ 44 :: 32 :: joinCS (p2 :: rest) := rfl

theorem joinCS_mem : ∀ parts : List Str, ∀ c : Nat, c ∈ joinCS parts →
    c = 44 ∨ c = 32 ∨ ∃ p ∈ parts, c ∈ p
  | [], c, hc => by simp [joinCS] at hc
  | [p], c, hc => by
    rw [joinCS] at hc
    exact Or.inr (Or.inr ⟨p, by simp, hc⟩)
  | p :: p2 :: rest, c, hc => by
    rw [joinCS_cons_cons, List.mem_append, List.mem_cons, List.mem_cons] at hc
    rcases hc with h | h | h | h
    · exact Or.inr (Or.inr ⟨p, by simp, h⟩)
    · exact Or.inl h
    · exact Or.inr (Or.inl h)
    · rcases joinCS_mem (p2 :: rest) c h with h2 | h2 | ⟨p3, hp3, hcp⟩
      · exact Or.inl h2
      · exact Or.inr (Or.inl h2)
      · exact Or.inr (Or.inr ⟨p3, List.mem_cons_of_mem p hp3, hcp⟩)

theorem wfStr_append {a b : Str} (ha : WfStr a) (hb : WfStr b) :
    WfStr (a ++ b) := by
  intro c hc
  rw [List.mem_append] at hc
  rcases hc with h | h
  · exact ha c h
  · exact hb c h

theorem wfStr_joinCS (parts : List Str) (h : ∀ p ∈ parts, WfStr p) :
    WfStr (joinCS parts) := by
  intro c hc
  rcases joinCS_mem parts c hc with h2 | h2 | ⟨p, hp, hcp⟩
  · omega
  · omega
  · exact h p hp c hcp

theorem wfStr_attrF_b64 (n : String) (v : Str) (hn : WfStr (ascii n)) :
    WfStr (attrF n (b64encode v)) := by
  intro c hc
  rw [attrF, List.mem_append, List.mem_cons] at hc
  rcases hc with h | h | h
  · exact hn c h
  · omega
  · have := b64encode_mem v c h; omega

theorem Transaction.wf_to_base64 (t : Transaction) : WfStr t.to_base64 := by
  unfold Transaction.to_base64
  apply wfStr_append
  apply wfStr_append
  · exact (by decide : WfStr (ascii "Transaction ["))
  · apply wfStr_joinCS
    intro p hp
    simp only [List.mem_cons, List.not_mem_nil, or_false] at hp
    rcases hp with h | h | h | h | h | h | h <;> subst h <;>
      exact wfStr_attrF_b64 _ _ (by decide)
  · exact (by decide : WfStr (ascii "]"))

theorem blkApplyAttr_eq (H : Str → Str) (b : Block) (n : String) (v : Str)
    (hn : (58 : Nat) ∉ ascii n) :
    blkApplyAttr H b (attrF n v) = blkSetField H b (ascii n) v := by
  unfold blkApplyAttr attrF
  rw [breakAtByte_append 58 (ascii n) v hn]

theorem blkApplyAttr_previous_hash (H : Str → Str) (b : Block) (v : Str)
    (hv : WfStr v) :
    blkApplyAttr H b (attrF "previousHash" (b64encode v))
      = some { b with previous_hash := v } := by
  rw [blkApplyAttr_eq H b "previousHash" _ (by decide)]
  unfold blkSetField
  rw [if_pos rfl, b64decode_b64encode v hv]
  rfl

theorem blkApplyAttr_hash (H : Str → Str) (b : Block) (v : Str)
    (hv : WfStr v) :
    blkApplyAttr H b (attrF "hash" (b64encode v))
      = some { b with hash := v } := by
  rw [blkApplyAttr_eq H b "hash" _ (by decide)]
  unfold blkSetField
  rw [if_neg (by decide), if_pos rfl, b64decode_b64encode v hv]
  rfl

theorem blkApplyAttr_difficulty (H : Str → Str) (b : Block) (i : Int) :
    blkApplyAttr H b (attrF "difficulty" (b64encode (intToDec i)))
      = some { b with difficulty := i } := by
  rw [blkApplyAttr_eq H b "difficulty" _ (by decide)]
  unfold blkSetField
  rw [if_neg (by decide), if_neg (by decide), if_pos rfl,
    b64decode_b64encode _ (wfStr_intToDec i)]
  simp only [Option.some_bind]
  rw [parseInt_intToDec i]
  rfl

theorem blkApplyAttr_nonce (H : Str → Str) (b : Block) (i : Int) :
    blkApplyAttr H b (attrF "nonce" (b64encode (intToDec i)))
      = some { b with nonce := i } := by
  rw [blkApplyAttr_eq H b "nonce" _ (by decide)]
  unfold blkSetField
  rw [if_neg (by decide), if_neg (by decide), if_neg (by decide), if_pos rfl,
    b64decode_b64encode _ (wfStr_intToDec i)]
  simp only [Option.some_bind]
  rw [parseInt_intToDec i]
  rfl

theorem blkApplyAttr_timestamp (H : Str → Str) (b : Block) (i : Int) :
    blkApplyAttr H b (attrF "timestamp" (b64encode (intToDec i)))
      = some { b with timestamp := i } := by
  rw [blkApplyAttr_eq H b "timestamp" _ (by decide)]
  unfold blkSetField
  rw [if_neg (by decide), if_neg (by decide), if_neg (by decide),
    if_neg (by decide), if_pos rfl, b64decode_b64encode _ (wfStr_intToDec i)]
  simp only [Option.some_bind]
  rw [parseInt_intToDec i]
  rfl

theorem blkApplyAttr_miner (H : Str → Str) (b : Block) (v : Str)
    (hv : WfStr v) :
    blkApplyAttr H b (attrF "miner" (b64encode v))
      = some { b with miner := v } := by
  rw [blkApplyAttr_eq H b "miner" _ (by decide)]
  unfold blkSetField
  rw [if_neg (by decide), if_neg (by decide), if_neg (by decide),
    if_neg (by decide), if_neg (by decide), if_pos rfl,
    b64decode_b64encode v hv]
  rfl

theorem blkApplyAttr_miner_rewards (H : Str → Str) (b : Block) (q : ℚ)
    (hq : DecimalRep q) :
    blkApplyAttr H b (attrF "minerRewards" (b64encode (ratToDec q)))
      = some { b with miner_rewards := q } := by
  rw [blkApplyAttr_eq H b "minerRewards" _ (by decide)]
  unfold blkSetField
  rw [if_neg (by decide), if_neg (by decide), if_neg (by decide),
    if_neg (by decide), if_neg (by decide), if_neg (by decide), if_pos rfl,
    b64decode_b64encode _ (wfStr_ratToDec q)]
  simp only [Option.some_bind]
  rw [parseRat_ratToDec q hq]
  rfl

theorem blkApplyAttr_merkle (H : Str → Str) (b : Block) (v : Str) :
    blkApplyAttr H b (attrF "merkleTree" (b64encode v)) = some b := by
  rw [blkApplyAttr_eq H b "merkleTree" _ (by decide)]
  unfold blkSetField
  rw [if_neg (by decide), if_neg (by decide), if_neg (by decide),
    if_neg (by decide), if_neg (by decide), if_neg (by decide),
    if_neg (by decide), if_neg (by decide), if_pos rfl]

theorem b64encode_ne_nil (s : Str) (h : s ≠ []) : b64encode s ≠ [] := by
  match s with
  | [] => exact absurd rfl h
  | [b0] => simp [b64encode]
  | [b0, b1] => simp [b64encode]
  | b0 :: b1 :: b2 :: rest => simp [b64encode]

theorem Transaction.to_base64_ne_nil (t : Transaction) :
    t.to_base64 ≠ [] := by
  unfold Transaction.to_base64
  intro h
  rw [List.append_eq_nil] at h
  rw [List.append_eq_nil] at h
  have h2 := h.1.1
  revert h2
  decide

theorem joinCS_eq_nil : ∀ x : Str, ∀ xs : List Str,
    joinCS (x :: xs) = [] → x = [] := by
  intro x xs
  match xs with
  | [] => rw [joinCS]; intro h; exact h
  | y :: rest =>
    rw [joinCS_cons_cons]
    intro h
    rw [List.append_eq_nil] at h
    exact h.1

theorem txListFold (H : Str → Str) : ∀ (txs acc : List Transaction),
    (∀ t ∈ txs, WfTransaction t) →
    (∀ t2 ∈ acc, ∀ t ∈ txs, t2.to_hash H ≠ t.to_hash H) →
    List.Pairwise (fun a c => a.to_hash H ≠ c.to_hash H) txs →
    ((txs.map (fun t => b64encode t.to_base64)).foldlM (fun l enc =>
        (b64decode enc).bind (fun dec =>
          (Transaction.from_base64 dec).map
            (fun tx => addTransaction H l tx))) acc)
      = some (acc ++ txs) := by
  intro txs
  induction txs with
  | nil => intro acc _ _ _; rw [List.map_nil, List.append_nil]; rfl
  | cons t rest ih =>
    intro acc hwf hacc hdist
    rw [List.map_cons, optFoldlM_cons,
      b64decode_b64encode _ (Transaction.wf_to_base64 t)]
    simp only [Option.some_bind]
    rw [Transaction.from_base64_to_base64 t (hwf t (by simp))]
    simp only [Option.map_some']
    have hadd : addTransaction H acc t = acc ++ [t] := by
      unfold addTransaction
      rw [if_neg]
      simp only [List.any_eq_true, decide_eq_true_eq]
      push_neg
      intro t2 ht2
      exact hacc t2 ht2 t (by simp)
    rw [hadd]
    simp only [Option.some_bind]
    rw [ih (acc ++ [t]) (fun x hx => hwf x (by simp [hx]))
      (by
        intro t2 ht2 x hx
        rw [List.mem_append] at ht2
        rcases ht2 with h2 | h2
        · exact hacc t2 h2 x (by simp [hx])
        · rw [List.mem_singleton] at h2
          subst h2
          exact (List.pairwise_cons.mp hdist).1 x hx)
      (List.pairwise_cons.mp hdist).2]
    rw [List.append_assoc]
    rfl

theorem blkApplyAttr_transactions (H : Str → Str) (b : Block)
    (hb : b.transactions = []) (txs : List Transaction)
    (hwf : ∀ t ∈ txs, WfTransaction t)
    (hdist : List.Pairwise (fun x y => x.to_hash H ≠ y.to_hash H) txs) :
    blkApplyAttr H b (attrF "transactions" (b64encode (joinCS
        (txs.map (fun t => b64encode t.to_base64)))))
      = some { b with transactions := txs } := by
  rw [blkApplyAttr_eq H b "transactions" _ (by decide)]
  unfold blkSetField
  rw [if_neg (by decide), if_neg (by decide), if_neg (by decide),
    if_neg (by decide), if_neg (by decide), if_neg (by decide),
    if_neg (by decide), if_pos rfl]
  rw [b64decode_b64encode _ (wfStr_joinCS _
    (by
      intro p hp
      rw [List.mem_map] at hp
      obtain ⟨t, _, ht⟩ := hp
      rw [← ht]
      exact wfStr_b64encode _))]
  simp only [Option.some_bind]
  cases txs with
  | nil =>
    simp only [List.map_nil]
    rw [show joinCS ([] : List Str) = [] from rfl, if_pos rfl]
    have hbeq : { b with transactions := ([] : List Transaction) } = b := by
      rw [← hb]
    rw [hbeq]
  | cons t rest =>
    have hne : joinCS ((t :: rest).map (fun x => b64encode x.to_base64))
        ≠ [] := by
      rw [List.map_cons]
      intro hcon
      exact b64encode_ne_nil _ (Transaction.to_base64_ne_nil t)
        (joinCS_eq_nil _ _ hcon)
    rw [if_neg hne]
    rw [splitCS_joinCS _ (by
        rw [List.map_cons]
        intro hco
        cases hco)
      (by
        intro p hp
        rw [List.mem_map] at hp
        obtain ⟨x, _, hx⟩ := hp
        rw [← hx]
        intro hcm
        exact (b64encode_mem _ 44 hcm).2.1 rfl)]
    rw [hb, txListFold H (t :: rest) [] hwf (by intro t2 ht2; cases ht2)
      hdist]
    rfl

/-- Well-formedness of a block value the system produces. -/
def WfBlock (b : Block) : Prop :=
  WfStr b.previous_hash ∧ WfStr b.hash ∧ WfStr b.miner ∧
  DecimalRep b.miner_rewards ∧ ∀ t ∈ b.transactions, WfTransaction t

instance (b : Block) : Decidable (WfBlock b) := by
  unfold WfBlock; infer_instance

theorem blk_attrs_no_comma (H : Str → Str) (b : Block) :
    ∀ p ∈ [attrF "previousHash" (b64encode b.previous_hash),
      attrF "hash" (b64encode b.hash),
      attrF "difficulty" (b64encode (intToDec b.difficulty)),
      attrF "nonce" (b64encode (intToDec b.nonce)),
      attrF "timestamp" (b64encode (intToDec b.timestamp)),
      attrF "transactions" (b64encode (joinCS
        (b.transactions.map (fun t => b64encode t.to_base64)))),
      attrF "merkleTree" (b64encode (b.get_merkle_root H)),
      attrF "miner" (b64encode b.miner),
      attrF "minerRewards" (b64encode (ratToDec b.miner_rewards))],
      (44 : Nat) ∉ p := by
  intro p hp
  simp only [List.mem_cons, List.not_mem_nil, or_false] at hp
  rcases hp with h | h | h | h | h | h | h | h | h <;> subst h <;>
    exact attrF_b64_no_comma _ _ (by decide)

theorem blk_from_base64_to_base64 (H : Str → Str) (b : Block)
    (hwf : WfBlock b)
    (hdist : List.Pairwise (fun x y => x.to_hash H ≠ y.to_hash H)
      b.transactions) :
    Block.from_base64 H (b.to_base64 H) = some b := by
  obtain ⟨hp, hh, hm, hr, htx⟩ := hwf
  unfold Block.from_base64 Block.to_base64
  rw [List.append_assoc]
  rw [show (7 : Nat) = (ascii "Block [").length from rfl, List.drop_left]
  rw [show ascii "]" = [93] from rfl]
  rw [List.dropLast_concat]
  rw [splitCS_joinCS _ (by intro hco; cases hco) (blk_attrs_no_comma H b)]
  rw [optFoldlM_cons, blkApplyAttr_previous_hash H _ _ hp]
  simp only [Option.some_bind]
  rw [optFoldlM_cons, blkApplyAttr_hash H _ _ hh]
  simp only [Option.some_bind]
  rw [optFoldlM_cons, blkApplyAttr_difficulty H _ b.difficulty]
  simp only [Option.some_bind]
  rw [optFoldlM_cons, blkApplyAttr_nonce H _ b.nonce]
  simp only [Option.some_bind]
  rw [optFoldlM_cons, blkApplyAttr_timestamp H _ b.timestamp]
  simp only [Option.some_bind]
  rw [optFoldlM_cons, blkApplyAttr_transactions H _ rfl b.transactions htx
    hdist]
  simp only [Option.some_bind]
  rw [optFoldlM_cons, blkApplyAttr_merkle H _ (b.get_merkle_root H)]
  simp only [Option.some_bind]
  rw [optFoldlM_cons, blkApplyAttr_miner H _ _ hm]
  simp only [Option.some_bind]
  rw [optFoldlM_cons, blkApplyAttr_miner_rewards H _ _ hr]
  simp only [Option.some_bind]
  rfl

/-! ## NetworkNode / peer address (blockchain_types/network_node.py) -/

structure NetworkNode where
  inet_address : Str
  inet_port : Int
deriving DecidableEq

namespace NetworkNode

/-- network_node.py `to_base64`. -/
def to_base64 (nn : NetworkNode) : Str :=
  ascii "NetworkNode [" ++ joinCS [
    attrF "inetAddress" (b64encode nn.inet_address),
    attrF "inetPort" (b64encode (intToDec nn.inet_port))] ++ ascii "]"

/-- network_node.py `to_hash`: peer identity for dedup. -/
def to_hash (H : Str → Str) (nn : NetworkNode) : Str := H nn.to_base64

end NetworkNode

def emptyNetworkNode : NetworkNode := { inet_address := [], inet_port := 0 }

/-- Field dispatch of network_node.py `from_base64`. -/
def nnSetField (nn : NetworkNode) (item value : Str) : Option NetworkNode :=
  if item = ascii "inetAddress" then
    (b64decode value).map (fun s => { nn with inet_address := s })
  else if item = ascii "inetPort" then
    (b64decode value).bind
      (fun s => (parseInt s).map (fun n => { nn with inet_port := n }))
  else some nn

/-- One iteration of the attribute loop of network_node.py `from_base64`. -/
def nnApplyAttr (nn : NetworkNode) (a : Str) : Option NetworkNode :=
  match breakAtByte 58 a with
  | (_, none) => some nn
  | (item, some value) => nnSetField nn item value

/-- network_node.py `from_base64`: strip `NetworkNode [` and `]` (13
characters and one), split on `", "`, fold the loop. -/
def NetworkNode.from_base64 (s : Str) : Option NetworkNode :=
  ((splitCS ((s.drop 13).dropLast)).foldlM nnApplyAttr emptyNetworkNode)

theorem nnApplyAttr_eq (nn : NetworkNode) (n : String) (v : Str)
    (hn : (58 : Nat) ∉ ascii n) :
    nnApplyAttr nn (attrF n v) = nnSetField nn (ascii n) v := by
  unfold nnApplyAttr attrF
  rw [breakAtByte_append 58 (ascii n) v hn]

theorem nnApplyAttr_address (nn : NetworkNode) (v : Str) (hv : WfStr v) :
    nnApplyAttr nn (attrF "inetAddress" (b64encode v))
      = some { nn with inet_address := v } := by
  rw [nnApplyAttr_eq nn "inetAddress" _ (by decide)]
  unfold nnSetField
  rw [if_pos rfl, b64decode_b64encode v hv]
  rfl

theorem nnApplyAttr_port (nn : NetworkNode) (i : Int) :
    nnApplyAttr nn (attrF "inetPort" (b64encode (intToDec i)))
      = some { nn with inet_port := i } := by
  rw [nnApplyAttr_eq nn "inetPort" _ (by decide)]
  unfold nnSetField
  rw [if_neg (by decide), if_pos rfl, b64decode_b64encode _ (wfStr_intToDec i)]
  simp only [Option.some_bind]
  rw [parseInt_intToDec i]
  rfl

theorem nn_from_base64_to_base64 (nn : NetworkNode)
    (hwf : WfStr nn.inet_address) :
    NetworkNode.from_base64 nn.to_base64 = some nn := by
  unfold NetworkNode.from_base64 NetworkNode.to_base64
  rw [List.append_assoc]
  rw [show (13 : Nat) = (ascii "NetworkNode [").length from rfl,
    List.drop_left]
  rw [show ascii "]" = [93] from rfl]
  rw [List.dropLast_concat]
  rw [splitCS_joinCS _ (by intro hco; cases hco)
    (by
      intro p hp
      simp only [List.mem_cons, List.not_mem_nil, or_false] at hp
      rcases hp with h | h <;> subst h <;>
        exact attrF_b64_no_comma _ _ (by decide))]
  rw [optFoldlM_cons, nnApplyAttr_address _ _ hwf]
  simp only [Option.some_bind]
  rw [optFoldlM_cons, nnApplyAttr_port _ nn.inet_port]
  simp only [Option.some_bind]
  rfl

/-! ## Chain and mempool state machine (blockchain_types/blockchain.py) -/

structure BlockchainState where
  difficulty : Int
  mining : Bool
  network_nodes : List NetworkNode
  chain : List Block
  pending_transactions : List Transaction
deriving DecidableEq

namespace Blockchain

/-- blockchain.py `get_account_balance`: full scan of the chain.  The
miner of a block collects the block's `miner_rewards` and every contained
transaction's fee; a sender pays `fee + amount`; a receiver collects
`amount`.  The mempool plays no part. -/
def get_account_balance (chain : List Block) (account : Str) : ℚ :=
  chain.foldl (fun balance block =>
    let is_miner : Bool := block.miner = account
    let balance := if is_miner then balance + block.miner_rewards else balance
    block.transactions.foldl (fun balance transaction =>
      let balance := if is_miner then balance + transaction.fee else balance
      let balance := if transaction.sender = account
        then balance - transaction.fee - transaction.amount else balance
      if transaction.receiver = account then balance + transaction.amount
      else balance) balance) 0

/-- blockchain.py `receive_block`: validation chain in source order —
duplicate hash, tip linkage, difficulty match, leading-zeros requirement,
recomputed seal digest, recomputed Merkle root, transaction signatures; on
success the included transactions leave the mempool and the block is
appended.  `merkle_set` carries the one bit of Python object state the
pure record cannot: whether `new_block.merkle_tree` was assigned
(`from_base64` assigns it only through `add_transaction`, so it is set
exactly when the decoded transaction list is nonempty).  A `none` result
is an exception escaping to the handler with the state unmutated (every
state change comes after all the accesses that can raise): with
`merkle_set = false`, `to_string_with_content_only` raises
`AttributeError` inside the duplicate and linkage branches
(blockchain.py:157,163) and unconditionally at blockchain.py:167
otherwise; with an empty chain, `self.chain[-1]` raises `IndexError`. -/
def receive_block (H : Str → Str) (verify : Str → Str → Str → Bool)
    (st : BlockchainState) (new_block : Block) (merkle_set : Bool) :
    Option (Bool × BlockchainState) :=
  if st.chain.any (fun block => new_block.hash = block.hash) then
    if merkle_set then some (false, st) else none
  else
    match st.chain.getLast? with
    | none => none
    | some tip =>
      if new_block.previous_hash ≠ tip.hash then
        if merkle_set then some (false, st) else none
      else if merkle_set = false then none
      else if new_block.difficulty ≠ st.difficulty then some (false, st)
      else if ¬ (List.replicate st.difficulty.toNat 48).isPrefixOf
          new_block.hash then some (false, st)
      else if new_block.hash ≠ H (new_block.to_base64_with_content_only H)
        then some (false, st)
      else if new_block.get_merkle_root H
          ≠ TransactionMerkleTree.get_merkle_root H new_block.transactions
        then some (false, st)
      else if ¬ new_block.transactions.all (fun t =>
          verify t.sender t.to_base64_with_content_only t.signature)
        then some (false, st)
      else
        some (true, { st with
          pending_transactions := st.pending_transactions.filter
            (fun p => ¬ new_block.transactions.any
              (fun t => t.to_hash H = p.to_hash H)),
          chain := st.chain ++ [new_block] })

/-- blockchain.py `receive_transaction`: signature format (length for the
sender's detected key type), signature verification over the content-only
encoding, chain-only balance (`total_cost > sender_balance` rejects, so
exact equality is accepted), then digest dedup against mempool and chain;
on success the transaction joins the mempool. -/
def receive_transaction (H : Str → Str) (verify : Str → Str → Str → Bool)
    (detect : Str → AddrType) (st : BlockchainState)
    (new_transaction : Transaction) : Bool × BlockchainState :=
  if ¬ Security.validate_signature_format detect new_transaction.sender
      new_transaction.signature then (false, st)
  else if ¬ verify new_transaction.sender
      new_transaction.to_base64_with_content_only new_transaction.signature
    then (false, st)
  else
    /- `total_cost = fee + amount` and the chain-only `sender_balance`,
    inlined. -/
    if new_transaction.fee + new_transaction.amount
        > get_account_balance st.chain new_transaction.sender
      then (false, st)
    else if st.pending_transactions.any
        (fun p => p.to_hash H = new_transaction.to_hash H) then (false, st)
    else if st.chain.any (fun block => block.transactions.any
        (fun t => t.to_hash H = new_transaction.to_hash H)) then (false, st)
    else
      (true, { st with pending_transactions :=
        st.pending_transactions ++ [new_transaction] })

/-- blockchain.py `adjust_difficulty`: a no-op unless mining is enabled
and `len(chain) % W == 1 and len(chain) > W`; then the average block
interval over the last `W` blocks decides a decrement (with floor 1) or an
increment. -/
def adjust_difficulty (st : BlockchainState) : BlockchainState :=
  if ¬ st.mining then st
  else
    let adjust_every := BlockchainConfig.ADJUST_DIFFICULTY_IN_EVERY
    let target_time := BlockchainConfig.BLOCK_TIME_IN_EVERY
    if st.chain.length % adjust_every = 1 ∧ st.chain.length > adjust_every
    then
      let timestamp_start := (st.chain.getD
        (st.chain.length - adjust_every - 1) emptyBlock).timestamp
      let timestamp_end := (st.chain.getD
        (st.chain.length - 1) emptyBlock).timestamp
      let seconds_in_between : Int :=
        Int.fdiv (timestamp_end - timestamp_start) 1000
      let average_block_time : ℚ :=
        (seconds_in_between : ℚ) / (adjust_every : ℚ)
      if average_block_time > (target_time : ℚ) then
        if st.difficulty > 1 then { st with difficulty := st.difficulty - 1 }
        else { st with difficulty := 1 }
      else { st with difficulty := st.difficulty + 1 }
    else st

/-- blockchain.py `add_network_nodes`: dedup by peer digest, append when
new; returns whether the node was added. -/
def add_network_nodes (H : Str → Str) (nodes : List NetworkNode)
    (new_network_node : NetworkNode) : Bool × List NetworkNode :=
  if nodes.any (fun n => n.to_hash H = new_network_node.to_hash H) then
    (false, nodes)
  else (true, nodes ++ [new_network_node])

/-- blockchain.py `to_base64_for_exchange`: the clone snapshot encoding —
difficulty, peer set, chain; no mempool, no wallet. -/
def to_base64_for_exchange (H : Str → Str) (st : BlockchainState) : Str :=
  ascii "Blockchain [" ++ joinCS [
    attrF "difficulty" (b64encode (intToDec st.difficulty)),
    attrF "networkNodes" (b64encode (joinCS
      (st.network_nodes.map (fun n => b64encode n.to_base64)))),
    attrF "chain" (b64encode (joinCS
      (st.chain.map (fun blk => b64encode (blk.to_base64 H)))))] ++
  ascii "]"

end Blockchain

/-- Field dispatch of blockchain.py `from_base64_of_exchange`: difficulty
is assigned; networkNodes go through `add_network_nodes` (dedup); chain
blocks are appended to the current chain list. -/
def exSetField (H : Str → Str) (st : BlockchainState) (item value : Str) :
    Option BlockchainState :=
  if item = ascii "difficulty" then
    (b64decode value).bind
      (fun s => (parseInt s).map (fun n => { st with difficulty := n }))
  else if item = ascii "networkNodes" then
    (b64decode value).bind (fun decoded =>
      if decoded = [] then some st
      else
        ((splitCS decoded).foldlM (fun nodes enc =>
            (b64decode enc).bind (fun dec =>
              (NetworkNode.from_base64 dec).map
                (fun node => (Blockchain.add_network_nodes H nodes node).2)))
          st.network_nodes).map
          (fun nodes => { st with network_nodes := nodes }))
  else if item = ascii "chain" then
    (b64decode value).bind (fun decoded =>
      if decoded = [] then some st
      else
        ((splitCS decoded).foldlM (fun ch enc =>
            (b64decode enc).bind (fun dec =>
              (Block.from_base64 H dec).map (fun blk => ch ++ [blk])))
          st.chain).map
          (fun ch => { st with chain := ch }))
  else some st

/-- One iteration of the attribute loop of `from_base64_of_exchange`. -/
def exApplyAttr (H : Str → Str) (st : BlockchainState) (a : Str) :
    Option BlockchainState :=
  match breakAtByte 58 a with
  | (_, none) => some st
  | (item, some value) => exSetField H st item value

/-- blockchain.py `from_base64_of_exchange`: strip `Blockchain [` (12
characters) and `]`, split on `", "`, fold the loop over the current
state. -/
def Blockchain.from_base64_of_exchange (H : Str → Str)
    (st : BlockchainState) (s : Str) : Option BlockchainState :=
  ((splitCS ((s.drop 12).dropLast)).foldlM (exApplyAttr H) st)

/-- The inter-block validation loop of blockchain.py
`get_blockchain_from`: `for i in range(len(chain) - 2)`, each step
requires `chain[i+1].previous_hash == chain[i].hash` and
`chain[i+1].timestamp >= chain[i].timestamp`; vacuous for fewer than
three blocks. -/
def cloneChecksOk (chain : List Block) : Bool :=
  decide (∀ i < chain.length - 2,
    (chain.getD (i + 1) emptyBlock).previous_hash
        = (chain.getD i emptyBlock).hash ∧
    (chain.getD i emptyBlock).timestamp
        ≤ (chain.getD (i + 1) emptyBlock).timestamp)

/-- blockchain.py `get_blockchain_from`, with the peer's single response
line given as input (the socket exchange is outside the model): stop
mining; when the chain is non-empty, erase chain and mempool; decode the
snapshot INTO the state; then run the validation loop, whose failure
returns `False` without undoing the adoption.  A decode exception is
caught inside `from_base64_of_exchange` over a partially-updated state in
the source; the model reports failure with the cleared state there (no
claim exercises a malformed snapshot). -/
def Blockchain.get_blockchain_from (H : Str → Str) (st : BlockchainState)
    (response : Str) : Bool × BlockchainState :=
  let st1 := { st with mining := false }
  let st2 := if st1.chain ≠ []
    then { st1 with chain := [], pending_transactions := [] } else st1
  match Blockchain.from_base64_of_exchange H st2 response with
  | none => (false, st2)
  | some st3 =>
      if st3.chain.length > 2 then (cloneChecksOk st3.chain, st3)
      else (true, st3)

/-! ## Spec-side definitions for the checked claims -/

/-- One level of the specified Merkle algorithm: pairs combined as
`digest(left || right)` (string concatenation), an odd trailing node
duplicated into itself. -/
def specMerkleLevel (H : Str → Str) : List Str → List Str
  | [] => []
  | [x] => [H (x ++ x)]
  | x :: y :: rest => H (x ++ y) :: specMerkleLevel H rest

theorem specMerkleLevel_length (H : Str → Str) :
    ∀ l : List Str, (specMerkleLevel H l).length = (l.length + 1) / 2
  | [] => by simp [specMerkleLevel]
  | [x] => by simp [specMerkleLevel]
  | x :: y :: rest => by
    simp [specMerkleLevel, specMerkleLevel_length H rest]
    omega

/-- The specified Merkle recursion, structurally recursive on a fuel
bound for the number of levels. -/
def merkleSpecStepsAux (H : Str → Str) : Nat → List Str → Str
  | _, [] => H (ascii "")
  | _, [x] => x
  | 0, x :: _ :: _ => x
  | fuel + 1, x :: y :: rest =>
      merkleSpecStepsAux H fuel (specMerkleLevel H (x :: y :: rest))

/-- The specified Merkle algorithm over a leaf list: recurse level by
level until one node remains; the root of the empty list is the digest of
the empty string. -/
def merkleSpecSteps (H : Str → Str) (l : List Str) : Str :=
  merkleSpecStepsAux H l.length l

theorem merkleSpecStepsAux_fuel (H : Str → Str) : ∀ fuel fuel2 l,
    l.length ≤ fuel + 1 → l.length ≤ fuel2 + 1 →
    merkleSpecStepsAux H fuel l = merkleSpecStepsAux H fuel2 l := by
  intro fuel
  induction fuel with
  | zero =>
    intro fuel2 l h1 _
    match l with
    | [] => cases fuel2 <;> rfl
    | [x] => cases fuel2 <;> rfl
    | x :: y :: rest => simp at h1
  | succ fuel ih =>
    intro fuel2 l h1 h2
    match l with
    | [] => cases fuel2 <;> rfl
    | [x] => cases fuel2 <;> rfl
    | x :: y :: rest =>
      cases fuel2 with
      | zero => simp at h2
      | succ fuel2 =>
        simp only [merkleSpecStepsAux]
        refine ih fuel2 (specMerkleLevel H (x :: y :: rest)) ?_ ?_ <;>
          · rw [specMerkleLevel_length]
            simp at h1 h2 ⊢
            omega

theorem merkleSpecSteps_pair (H : Str → Str) (x y : Str) (rest : List Str) :
    merkleSpecSteps H (x :: y :: rest)
      = merkleSpecSteps H (specMerkleLevel H (x :: y :: rest)) := by
  unfold merkleSpecSteps
  have h1 : (x :: y :: rest).length = rest.length + 2 := by simp
  rw [h1]
  simp only [merkleSpecStepsAux]
  refine merkleSpecStepsAux_fuel H (rest.length + 1)
    (specMerkleLevel H (x :: y :: rest)).length _ ?_ ?_ <;>
    · rw [specMerkleLevel_length]
      simp only [List.length_cons]
      omega

/-- The full canonical block encoding with only the `hash` field removed,
textually: re-frame the attribute list without the attribute named
`hash`.  This is the spec's description of the seal encoding, compared
against the source's `to_base64_with_content_only`. -/
def removeHashField (s : Str) : Str :=
  ascii "Block [" ++ joinCS ((splitCS ((s.drop 7).dropLast)).filter
    (fun a => (breakAtByte 58 a).1 ≠ ascii "hash")) ++ ascii "]"

/-- The specified full-scan balance: per block, the reward when the miner
matches, plus per transaction the miner's fee, the sender's debit of
`amount + fee` and the receiver's credit of `amount`; nothing else
contributes. -/
def balanceSpec (chain : List Block) (account : Str) : ℚ :=
  (chain.map (fun block =>
    (if block.miner = account then block.miner_rewards else 0) +
    (block.transactions.map (fun t =>
      (if block.miner = account then t.fee else 0)
      - (if t.sender = account then t.amount + t.fee else 0)
      + (if t.receiver = account then t.amount else 0))).sum)).sum

/-- Every address the chain mentions: miners, senders, receivers. -/
def chainAddresses (chain : List Block) : Finset Str :=
  chain.foldr (fun b acc =>
    insert b.miner (b.transactions.foldr
      (fun t a => insert t.sender (insert t.receiver a)) acc)) ∅

/-- The number of mined blocks carrying a nonzero reward (the claim's
`count_of_mined_blocks_with_reward`). -/
def countRewardedBlocks (chain : List Block) : Nat :=
  (chain.filter (fun b => b.miner_rewards ≠ 0)).length

/-! ## Concrete values used by witnesses and counterexamples -/

/-- The identity digest provider: a legitimate instantiation of the
abstract digest capability for concrete evaluation. -/
def idH : Str → Str := fun s => s

def exAddrA : Str := ascii "A"

def exAddrB : Str := ascii "B"

def exSig1 : Str := b64encode (List.replicate 64 1)

def exSig2 : Str := b64encode (List.replicate 64 2)

def exSigRSA : Str := b64encode (List.replicate 128 0)

def exTx1 : Transaction :=
  { sender := exAddrA, receiver := exAddrB, amount := 5, fee := 0,
    timestamp := 7, message := [], signature := exSig1 }

/-- Content-identical to `exTx1`; only the signature bytes differ. -/
def exTx2 : Transaction :=
  { sender := exAddrA, receiver := exAddrB, amount := 5, fee := 0,
    timestamp := 7, message := [], signature := exSig2 }

/-- Content-identical to `exTx1`, carrying an RSA-length signature. -/
def exTxU : Transaction :=
  { sender := exAddrA, receiver := exAddrB, amount := 5, fee := 0,
    timestamp := 7, message := [], signature := exSigRSA }

/-- A genesis-like block crediting `exAddrA` with the standard reward. -/
def exRewardBlock : Block :=
  { previous_hash := [48], hash := [48, 49], difficulty := 0, nonce := 0,
    timestamp := 1, transactions := [], miner := exAddrA,
    miner_rewards := 10 }

def exState : BlockchainState :=
  { difficulty := 1, mining := true, network_nodes := [],
    chain := [exRewardBlock], pending_transactions := [] }

def exBlockC2 : Block :=
  { previous_hash := [48], hash := [49], difficulty := 1, nonce := 2,
    timestamp := 3, transactions := [exTx1], miner := exAddrA,
    miner_rewards := 10 }

def exBlockC2e : Block := { exBlockC2 with transactions := [] }

def exBlockRT : Block :=
  { previous_hash := [48], hash := [49], difficulty := 2, nonce := 3,
    timestamp := 9, transactions := [exTx1, exTx2], miner := exAddrA,
    miner_rewards := 3 }

def exNode : NetworkNode :=
  { inet_address := ascii "localhost", inet_port := 8000 }

def exB1 : Block :=
  { previous_hash := [48], hash := ascii "h1", difficulty := 0, nonce := 0,
    timestamp := 1, transactions := [], miner := exAddrA,
    miner_rewards := 10 }

def exB2 : Block :=
  { exB1 with
    previous_hash := ascii "h1"
    hash := ascii "h2"
    timestamp := 2 }

/-- Violates I1 at index 0: its `previous_hash` is not `exB1.hash`. -/
def exB2bad : Block := { exB2 with previous_hash := ascii "WRONG" }

def exB3 : Block :=
  { exB1 with
    previous_hash := ascii "h2"
    hash := ascii "h3"
    timestamp := 3 }

/-- A snapshot whose chain violates I1 at the checked index 0. -/
def exSnapBad : BlockchainState :=
  { difficulty := 2, mining := false, network_nodes := [],
    chain := [exB1, exB2bad, exB3], pending_transactions := [] }

/-- A well-linked two-block snapshot (accepted without inter-block
checks). -/
def exSnapGood : BlockchainState :=
  { difficulty := 2, mining := false, network_nodes := [],
    chain := [exB1, exB2], pending_transactions := [] }

def exInitState : BlockchainState :=
  { difficulty := 1, mining := true, network_nodes := [],
    chain := [exB1], pending_transactions := [exTx1] }

/-! ## Helper characterizations of the admission functions -/

theorem receive_transaction_accepts_iff (H : Str → Str)
    (verify : Str → Str → Str → Bool) (detect : Str → AddrType)
    (st : BlockchainState) (t : Transaction) :
    (Blockchain.receive_transaction H verify detect st t).1 = true ↔
      (Security.validate_signature_format detect t.sender t.signature = true ∧
       verify t.sender t.to_base64_with_content_only t.signature = true ∧
       t.amount + t.fee ≤ Blockchain.get_account_balance st.chain t.sender ∧
       (∀ p ∈ st.pending_transactions, p.to_hash H ≠ t.to_hash H) ∧
       (∀ b ∈ st.chain, ∀ t2 ∈ b.transactions,
         t2.to_hash H ≠ t.to_hash H)) := by
  unfold Blockchain.receive_transaction
  by_cases h1 : Security.validate_signature_format detect t.sender
      t.signature = true
  swap
  · rw [if_pos h1]
    exact ⟨fun hfa => absurd hfa (by simp), fun hco => absurd hco.1 h1⟩
  rw [if_neg (not_not_intro h1)]
  by_cases h2 : verify t.sender t.to_base64_with_content_only t.signature
      = true
  swap
  · rw [if_pos h2]
    exact ⟨fun hfa => absurd hfa (by simp), fun hco => absurd hco.2.1 h2⟩
  rw [if_neg (not_not_intro h2)]
  by_cases h3 : t.fee + t.amount
      > Blockchain.get_account_balance st.chain t.sender
  · rw [if_pos h3]
    refine ⟨fun hfa => absurd hfa (by simp), fun hco => ?_⟩
    have hle := hco.2.2.1
    rw [add_comm] at hle
    exact absurd h3 (not_lt.mpr hle)
  rw [if_neg h3]
  by_cases h4 : (st.pending_transactions.any
      fun p => decide (Transaction.to_hash H p = Transaction.to_hash H t))
      = true
  · rw [if_pos h4]
    refine ⟨fun hfa => absurd hfa (by simp), fun hco => ?_⟩
    rw [List.any_eq_true] at h4
    obtain ⟨p, hpm, hpe⟩ := h4
    exact absurd (of_decide_eq_true hpe) (hco.2.2.2.1 p hpm)
  rw [if_neg h4]
  by_cases h5 : (st.chain.any fun block => block.transactions.any
      fun t2 => decide (Transaction.to_hash H t2 = Transaction.to_hash H t))
      = true
  · rw [if_pos h5]
    refine ⟨fun hfa => absurd hfa (by simp), fun hco => ?_⟩
    rw [List.any_eq_true] at h5
    obtain ⟨b, hbm, hbe⟩ := h5
    rw [List.any_eq_true] at hbe
    obtain ⟨t2, ht2, hte⟩ := hbe
    exact absurd (of_decide_eq_true hte) (hco.2.2.2.2 b hbm t2 ht2)
  rw [if_neg h5]
  refine ⟨fun _ => ⟨h1, h2, ?_, ?_, ?_⟩, fun _ => rfl⟩
  · rw [add_comm]
    exact not_lt.mp h3
  · intro p hpm hpe
    exact h4 (List.any_eq_true.mpr ⟨p, hpm, decide_eq_true hpe⟩)
  · intro b hbm t2 ht2 hte
    exact h5 (List.any_eq_true.mpr
      ⟨b, hbm, List.any_eq_true.mpr ⟨t2, ht2, decide_eq_true hte⟩⟩)

theorem receive_transaction_state (H : Str → Str)
    (verify : Str → Str → Str → Bool) (detect : Str → AddrType)
    (st : BlockchainState) (t : Transaction) :
    (Blockchain.receive_transaction H verify detect st t).2 =
      if (Blockchain.receive_transaction H verify detect st t).1
      then { st with pending_transactions :=
        st.pending_transactions ++ [t] }
      else st := by
  unfold Blockchain.receive_transaction
  split_ifs <;> simp_all

theorem receive_block_unset (H : Str → Str)
    (verify : Str → Str → Str → Bool) (st : BlockchainState) (nb : Block) :
    Blockchain.receive_block H verify st nb false = none := by
  unfold Blockchain.receive_block
  by_cases h1 : (st.chain.any fun block => decide (nb.hash = block.hash))
      = true
  · rw [if_pos h1]
    rfl
  rw [if_neg h1]
  cases st.chain.getLast? with
  | none => rfl
  | some tip =>
    dsimp only
    by_cases h2 : nb.previous_hash ≠ tip.hash
    · rw [if_pos h2]
      rfl
    · rw [if_neg h2]
      rfl

theorem receive_block_accepts_iff (H : Str → Str)
    (verify : Str → Str → Str → Bool) (st : BlockchainState) (nb : Block) :
    (∃ stf, Blockchain.receive_block H verify st nb true
        = some (true, stf)) ↔
      ((∀ b ∈ st.chain, nb.hash ≠ b.hash) ∧
       (∃ tip, st.chain.getLast? = some tip ∧
         nb.previous_hash = tip.hash) ∧
       nb.difficulty = st.difficulty ∧
       (List.replicate st.difficulty.toNat 48).isPrefixOf nb.hash = true ∧
       nb.hash = nb.to_hash_with_content_only H ∧
       nb.get_merkle_root H
         = TransactionMerkleTree.get_merkle_root H nb.transactions ∧
       (∀ t ∈ nb.transactions, verify t.sender
         t.to_base64_with_content_only t.signature = true)) := by
  unfold Blockchain.receive_block
  by_cases h1 : (st.chain.any fun block => decide (nb.hash = block.hash))
      = true
  · rw [if_pos h1, if_pos rfl]
    refine ⟨fun ⟨stf, hfa⟩ => by simp at hfa, fun hco => ?_⟩
    rw [List.any_eq_true] at h1
    obtain ⟨b, hbm, hbe⟩ := h1
    exact absurd (of_decide_eq_true hbe) (hco.1 b hbm)
  rw [if_neg h1]
  have hnodup : ∀ b ∈ st.chain, nb.hash ≠ b.hash := by
    intro b hbm hbe
    exact h1 (List.any_eq_true.mpr ⟨b, hbm, decide_eq_true hbe⟩)
  cases hlast : st.chain.getLast? with
  | none =>
    refine ⟨fun ⟨stf, hfa⟩ => by simp at hfa, fun hco => ?_⟩
    obtain ⟨tip, htip, _⟩ := hco.2.1
    cases htip
  | some tip =>
    dsimp only
    by_cases h2 : nb.previous_hash ≠ tip.hash
    · rw [if_pos h2, if_pos rfl]
      refine ⟨fun ⟨stf, hfa⟩ => by simp at hfa, fun hco => ?_⟩
      obtain ⟨tip2, htip2, heq⟩ := hco.2.1
      have het : tip = tip2 := Option.some.inj htip2
      rw [← het] at heq
      exact absurd heq h2
    rw [if_neg h2, if_neg (by simp : ¬ ((true : Bool) = false))]
    by_cases h3 : nb.difficulty ≠ st.difficulty
    · rw [if_pos h3]
      exact ⟨fun ⟨stf, hfa⟩ => by simp at hfa,
        fun hco => absurd hco.2.2.1 h3⟩
    rw [if_neg h3]
    by_cases h4 : (List.replicate st.difficulty.toNat 48).isPrefixOf
        nb.hash = true
    swap
    · rw [if_pos h4]
      exact ⟨fun ⟨stf, hfa⟩ => by simp at hfa,
        fun hco => absurd hco.2.2.2.1 h4⟩
    rw [if_neg (not_not_intro h4)]
    by_cases h5 : nb.hash ≠ H (nb.to_base64_with_content_only H)
    · rw [if_pos h5]
      exact ⟨fun ⟨stf, hfa⟩ => by simp at hfa,
        fun hco => absurd hco.2.2.2.2.1 h5⟩
    rw [if_neg h5]
    by_cases h6 : nb.get_merkle_root H
        ≠ TransactionMerkleTree.get_merkle_root H nb.transactions
    · rw [if_pos h6]
      exact ⟨fun ⟨stf, hfa⟩ => by simp at hfa,
        fun hco => absurd hco.2.2.2.2.2.1 h6⟩
    rw [if_neg h6]
    by_cases h7 : (nb.transactions.all fun t => verify t.sender
        t.to_base64_with_content_only t.signature) = true
    swap
    · rw [if_pos h7]
      refine ⟨fun ⟨stf, hfa⟩ => by simp at hfa, fun hco => ?_⟩
      refine absurd (List.all_eq_true.mpr ?_) h7
      intro t htm
      exact hco.2.2.2.2.2.2 t htm
    rw [if_neg (not_not_intro h7)]
    refine ⟨fun _ => ⟨hnodup, ⟨tip, rfl, not_not.mp h2⟩, not_not.mp h3,
      h4, not_not.mp h5, not_not.mp h6, ?_⟩, fun _ => ⟨_, rfl⟩⟩
    intro t htm
    exact List.all_eq_true.mp h7 t htm

theorem receive_block_state (H : Str → Str)
    (verify : Str → Str → Str → Bool) (st : BlockchainState) (nb : Block) :
    ∀ b2 st2, Blockchain.receive_block H verify st nb true
        = some (b2, st2) →
      st2 = if b2 then { st with
          pending_transactions := st.pending_transactions.filter
            (fun p => ¬ nb.transactions.any
              (fun t => t.to_hash H = p.to_hash H)),
          chain := st.chain ++ [nb] }
        else st := by
  unfold Blockchain.receive_block
  intro b2 st2
  by_cases h1 : (st.chain.any fun block => decide (nb.hash = block.hash))
      = true
  · rw [if_pos h1, if_pos rfl]
    intro h
    have hinj := Option.some.inj h
    injection hinj with hb hs
    subst hb
    subst hs
    simp
  · rw [if_neg h1]
    cases hlast : st.chain.getLast? with
    | none =>
      intro h
      simp at h
    | some tip =>
      dsimp only
      by_cases h2 : nb.previous_hash ≠ tip.hash
      · rw [if_pos h2, if_pos rfl]
        intro h
        have hinj := Option.some.inj h
        injection hinj with hb hs
        subst hb
        subst hs
        simp
      · rw [if_neg h2, if_neg (by simp : ¬ ((true : Bool) = false))]
        intro h
        split_ifs at h <;>
          · have hinj := Option.some.inj h
            injection hinj with hb hs
            subst hb
            subst hs
            simp

/-! ## Balance lemmas -/

theorem foldl_addShift {α : Type} (f : ℚ → α → ℚ) (g : α → ℚ)
    (hf : ∀ bal x, f bal x = bal + g x) :
    ∀ (xs : List α) (b : ℚ), xs.foldl f b = b + (xs.map g).sum := by
  intro xs
  induction xs with
  | nil => intro b; simp
  | cons x rest ih =>
    intro b
    rw [List.foldl_cons, ih, hf, List.map_cons, List.sum_cons]
    ring

/-- The per-transaction balance movement seen by `account` in a block
mined by `miner`. -/
def txDelta (miner account : Str) (t : Transaction) : ℚ :=
  (if miner = account then t.fee else 0)
  - (if t.sender = account then t.amount + t.fee else 0)
  + (if t.receiver = account then t.amount else 0)

/-- The per-block balance movement seen by `account`. -/
def blockDelta (account : Str) (block : Block) : ℚ :=
  (if block.miner = account then block.miner_rewards else 0) +
  (block.transactions.map (txDelta block.miner account)).sum

theorem balance_eq_spec (chain : List Block) (account : Str) :
    Blockchain.get_account_balance chain account
      = balanceSpec chain account := by
  unfold Blockchain.get_account_balance balanceSpec
  rw [foldl_addShift _ (fun block =>
    (if block.miner = account then block.miner_rewards else 0) +
    (block.transactions.map (fun t =>
      (if block.miner = account then t.fee else 0)
      - (if t.sender = account then t.amount + t.fee else 0)
      + (if t.receiver = account then t.amount else 0))).sum) ?_ chain 0]
  · rw [zero_add]
  intro bal block
  rw [foldl_addShift _ (fun t =>
    (if block.miner = account then t.fee else 0)
    - (if t.sender = account then t.amount + t.fee else 0)
    + (if t.receiver = account then t.amount else 0)) ?_ block.transactions]
  · simp only [decide_eq_true_eq]
    split_ifs <;> ring
  intro bal2 t
  simp only [decide_eq_true_eq]
  split_ifs <;> ring

theorem sum_txDelta (S : Finset Str) (miner : Str) (hmS : miner ∈ S) :
    ∀ txs : List Transaction,
    (∀ t ∈ txs, t.sender ∈ S ∧ t.receiver ∈ S) →
    (∑ a in S, (txs.map (fun t =>
      (if miner = a then t.fee else 0)
      - (if t.sender = a then t.amount + t.fee else 0)
      + (if t.receiver = a then t.amount else 0))).sum) = 0 := by
  intro txs
  induction txs with
  | nil => intro _; simp
  | cons t rest ih =>
    intro hmem
    have hts : t.sender ∈ S := (hmem t (List.mem_cons_self t rest)).1
    have htr : t.receiver ∈ S := (hmem t (List.mem_cons_self t rest)).2
    simp only [List.map_cons, List.sum_cons]
    rw [Finset.sum_add_distrib,
      ih (fun u hu => hmem u (List.mem_cons_of_mem t hu))]
    have h1 : (∑ a in S,
        ((if miner = a then t.fee else 0)
          - (if t.sender = a then t.amount + t.fee else 0)
          + (if t.receiver = a then t.amount else 0))) = 0 := by
      rw [Finset.sum_add_distrib, Finset.sum_sub_distrib,
        Finset.sum_ite_eq S miner (fun _ => t.fee),
        Finset.sum_ite_eq S t.sender (fun _ => t.amount + t.fee),
        Finset.sum_ite_eq S t.receiver (fun _ => t.amount),
        if_pos hmS, if_pos hts, if_pos htr]
      ring
    rw [h1, add_zero]

theorem sum_balanceSpec (S : Finset Str) :
    ∀ chain : List Block,
    (∀ b ∈ chain, b.miner ∈ S) →
    (∀ b ∈ chain, ∀ t ∈ b.transactions, t.sender ∈ S ∧ t.receiver ∈ S) →
    (∑ a in S, balanceSpec chain a)
      = (chain.map Block.miner_rewards).sum := by
  intro chain
  induction chain with
  | nil => intro _ _; simp [balanceSpec]
  | cons b rest ih =>
    intro hm hsr
    have hbS : b.miner ∈ S := hm b (List.mem_cons_self b rest)
    simp only [balanceSpec, List.map_cons, List.sum_cons]
    rw [Finset.sum_add_distrib, Finset.sum_add_distrib,
      Finset.sum_ite_eq S b.miner (fun _ => b.miner_rewards), if_pos hbS,
      sum_txDelta S b.miner hbS b.transactions
        (fun t ht => hsr b (List.mem_cons_self b rest) t ht)]
    have := ih (fun u hu => hm u (List.mem_cons_of_mem b hu))
      (fun u hu => hsr u (List.mem_cons_of_mem b hu))
    simp only [balanceSpec] at this
    rw [add_zero, this]

def txAddrFold (txs : List Transaction) (acc : Finset Str) : Finset Str :=
  txs.foldr (fun t a => insert t.sender (insert t.receiver a)) acc

theorem txAddrFold_sub : ∀ (txs : List Transaction) (acc : Finset Str),
    acc ⊆ txAddrFold txs acc
  | [], acc => by simp [txAddrFold]
  | t :: rest, acc => by
    simp only [txAddrFold, List.foldr_cons]
    intro x hx
    exact Finset.mem_insert_of_mem (Finset.mem_insert_of_mem
      (txAddrFold_sub rest acc hx))

theorem txAddrFold_mem : ∀ (txs : List Transaction) (acc : Finset Str)
    (t : Transaction), t ∈ txs →
    t.sender ∈ txAddrFold txs acc ∧ t.receiver ∈ txAddrFold txs acc
  | u :: rest, acc, t, ht => by
    rcases List.mem_cons.mp ht with heq | htl
    · subst heq
      simp only [txAddrFold, List.foldr_cons]
      exact ⟨Finset.mem_insert_self _ _,
        Finset.mem_insert_of_mem (Finset.mem_insert_self _ _)⟩
    · have := txAddrFold_mem rest acc t htl
      simp only [txAddrFold, List.foldr_cons]
      exact ⟨Finset.mem_insert_of_mem (Finset.mem_insert_of_mem this.1),
        Finset.mem_insert_of_mem (Finset.mem_insert_of_mem this.2)⟩

theorem chainAddresses_cons (b : Block) (rest : List Block) :
    chainAddresses (b :: rest)
      = insert b.miner (txAddrFold b.transactions (chainAddresses rest)) := by
  simp [chainAddresses, txAddrFold]

theorem chainAddresses_miner : ∀ (chain : List Block) (b : Block),
    b ∈ chain → b.miner ∈ chainAddresses chain
  | u :: rest, b, hb => by
    rcases List.mem_cons.mp hb with heq | htl
    · subst heq
      rw [chainAddresses_cons]
      exact Finset.mem_insert_self _ _
    · rw [chainAddresses_cons]
      exact Finset.mem_insert_of_mem
        (txAddrFold_sub _ _ (chainAddresses_miner rest b htl))

theorem chainAddresses_tx : ∀ (chain : List Block) (b : Block),
    b ∈ chain → ∀ t ∈ b.transactions,
    t.sender ∈ chainAddresses chain ∧ t.receiver ∈ chainAddresses chain
  | u :: rest, b, hb, t, ht => by
    rcases List.mem_cons.mp hb with heq | htl
    · subst heq
      rw [chainAddresses_cons]
      have := txAddrFold_mem b.transactions (chainAddresses rest) t ht
      exact ⟨Finset.mem_insert_of_mem this.1,
        Finset.mem_insert_of_mem this.2⟩
    · rw [chainAddresses_cons]
      have := chainAddresses_tx rest b htl t ht
      exact ⟨Finset.mem_insert_of_mem (txAddrFold_sub _ _ this.1),
        Finset.mem_insert_of_mem (txAddrFold_sub _ _ this.2)⟩

/-! ## Snapshot exchange round trip -/

theorem blk_to_base64_ne_nil (H : Str → Str) (b : Block) :
    b.to_base64 H ≠ [] := by
  unfold Block.to_base64
  intro h
  rw [List.append_eq_nil] at h
  rw [List.append_eq_nil] at h
  have h2 := h.1.1
  revert h2
  decide

theorem blk_wf_to_base64 (H : Str → Str) (b : Block) :
    WfStr (b.to_base64 H) := by
  unfold Block.to_base64
  apply wfStr_append
  apply wfStr_append
  · exact (by decide : WfStr (ascii "Block ["))
  · apply wfStr_joinCS
    intro p hp
    simp only [List.mem_cons, List.not_mem_nil, or_false] at hp
    rcases hp with h | h | h | h | h | h | h | h | h <;> subst h <;>
      exact wfStr_attrF_b64 _ _ (by decide)
  · exact (by decide : WfStr (ascii "]"))

theorem exApplyAttr_eq (H : Str → Str) (st : BlockchainState) (n : String)
    (v : Str) (hn : (58 : Nat) ∉ ascii n) :
    exApplyAttr H st (attrF n v) = exSetField H st (ascii n) v := by
  unfold exApplyAttr attrF
  rw [breakAtByte_append 58 (ascii n) v hn]

theorem exApplyAttr_difficulty (H : Str → Str) (st : BlockchainState)
    (i : Int) :
    exApplyAttr H st (attrF "difficulty" (b64encode (intToDec i)))
      = some { st with difficulty := i } := by
  rw [exApplyAttr_eq H st _ _ (by decide)]
  unfold exSetField
  rw [if_pos rfl, b64decode_b64encode _ (wfStr_intToDec i)]
  simp only [Option.some_bind]
  rw [parseInt_intToDec]
  simp only [Option.map_some']

theorem exApplyAttr_networkNodes_nil (H : Str → Str)
    (st : BlockchainState) :
    exApplyAttr H st (attrF "networkNodes" (b64encode []))
      = some st := by
  rw [exApplyAttr_eq H st _ _ (by decide)]
  unfold exSetField
  rw [if_neg (by decide), if_pos rfl,
    b64decode_b64encode _ (by decide : WfStr [])]
  simp only [Option.some_bind]
  simp

theorem blkListFold (H : Str → Str) : ∀ (blks acc : List Block),
    (∀ b ∈ blks, WfBlock b) →
    (∀ b ∈ blks, List.Pairwise
      (fun x y => x.to_hash H ≠ y.to_hash H) b.transactions) →
    List.foldlM (fun ch enc => (b64decode enc).bind (fun dec =>
        (Block.from_base64 H dec).map (fun blk => ch ++ [blk])))
      acc (blks.map (fun b => b64encode (b.to_base64 H)))
    = some (acc ++ blks) := by
  intro blks
  induction blks with
  | nil =>
    intro acc _ _
    simp [List.foldlM]
  | cons b rest ih =>
    intro acc hwf hdist
    rw [List.map_cons, optFoldlM_cons,
      b64decode_b64encode _ (blk_wf_to_base64 H b)]
    simp only [Option.some_bind]
    rw [blk_from_base64_to_base64 H b (hwf b (by simp))
      (hdist b (by simp))]
    simp only [Option.map_some', Option.some_bind]
    rw [ih (acc ++ [b]) (fun x hx => hwf x (by simp [hx]))
      (fun x hx => hdist x (by simp [hx]))]
    simp

theorem exApplyAttr_chain (H : Str → Str) (st : BlockchainState)
    (blks : List Block)
    (hwf : ∀ b ∈ blks, WfBlock b)
    (hdist : ∀ b ∈ blks, List.Pairwise
      (fun x y => x.to_hash H ≠ y.to_hash H) b.transactions) :
    exApplyAttr H st (attrF "chain" (b64encode (joinCS
        (blks.map (fun b => b64encode (b.to_base64 H))))))
      = some { st with chain := st.chain ++ blks } := by
  rw [exApplyAttr_eq H st _ _ (by decide)]
  unfold exSetField
  rw [if_neg (by decide), if_neg (by decide), if_pos rfl,
    b64decode_b64encode _ (wfStr_joinCS _
      (fun p hp => by
        rw [List.mem_map] at hp
        obtain ⟨b, _, hb⟩ := hp
        rw [← hb]
        exact wfStr_b64encode _))]
  simp only [Option.some_bind]
  cases blks with
  | nil =>
    rw [List.map_nil, show joinCS [] = [] from rfl]
    simp
  | cons b rest =>
    rw [List.map_cons]
    rw [if_neg (fun hco => b64encode_ne_nil _ (blk_to_base64_ne_nil H b)
      (joinCS_eq_nil _ _ hco))]
    rw [splitCS_joinCS _ (by intro hco; cases hco)
      (by
        intro p hp
        simp only [List.mem_cons] at hp
        rcases hp with h | h
        · rw [h]
          intro hc
          have := b64encode_mem _ _ hc
          omega
        · rw [List.mem_map] at h
          obtain ⟨x, _, hx⟩ := h
          rw [← hx]
          intro hc
          have := b64encode_mem _ _ hc
          omega)]
    rw [← List.map_cons (fun b => b64encode (Block.to_base64 H b)) b rest]
    rw [blkListFold H (b :: rest) st.chain hwf hdist]
    simp only [Option.map_some']

theorem ex_attrs_no_comma (H : Str → Str) (st : BlockchainState) :
    ∀ p ∈ [attrF "difficulty" (b64encode (intToDec st.difficulty)),
      attrF "networkNodes" (b64encode (joinCS
        (st.network_nodes.map (fun n => b64encode n.to_base64)))),
      attrF "chain" (b64encode (joinCS
        (st.chain.map (fun blk => b64encode (blk.to_base64 H)))))],
      (44 : Nat) ∉ p := by
  intro p hp
  simp only [List.mem_cons, List.not_mem_nil, or_false] at hp
  rcases hp with h | h | h <;> subst h <;>
    exact attrF_b64_no_comma _ _ (by decide)

/-- Decoding a peer-free exchange snapshot restores its difficulty and
appends its chain to the receiving state's chain list. -/
theorem from_base64_of_exchange_to_base64 (H : Str → Str)
    (st snap : BlockchainState)
    (hsnn : snap.network_nodes = [])
    (hwf : ∀ b ∈ snap.chain, WfBlock b)
    (hdist : ∀ b ∈ snap.chain, List.Pairwise
      (fun x y => x.to_hash H ≠ y.to_hash H) b.transactions) :
    Blockchain.from_base64_of_exchange H st
        (Blockchain.to_base64_for_exchange H snap)
      = some { st with
          difficulty := snap.difficulty
          chain := st.chain ++ snap.chain } := by
  unfold Blockchain.from_base64_of_exchange Blockchain.to_base64_for_exchange
  rw [List.append_assoc]
  rw [show (12 : Nat) = (ascii "Blockchain [").length from rfl,
    List.drop_left]
  rw [show ascii "]" = [93] from rfl]
  rw [List.dropLast_concat]
  rw [splitCS_joinCS _ (by intro hco; cases hco) (ex_attrs_no_comma H snap)]
  rw [optFoldlM_cons, exApplyAttr_difficulty H st snap.difficulty]
  simp only [Option.some_bind]
  rw [optFoldlM_cons, hsnn, List.map_nil,
    show joinCS [] = [] from rfl,
    exApplyAttr_networkNodes_nil H _]
  simp only [Option.some_bind]
  rw [optFoldlM_cons, exApplyAttr_chain H _ snap.chain hwf hdist]
  simp only [Option.some_bind]
  rfl

/-! ## Evaluation lemmas for the concrete rational literals -/

theorem DecimalRep_den_one (q : ℚ) (h : q.den = 1) : DecimalRep q := by
  unfold DecimalRep
  rw [h, show decExp 1 = 0 from by decide, pow_zero, mul_one, h]

theorem ratToDec_zero : ratToDec (0 : ℚ) = ascii "0.0" := by
  rw [ratToDec, if_neg (by norm_num), ratToDecNN]
  rw [show (0 : ℚ).den = 1 from by decide, show decExp 1 = 0 from by decide,
    pow_zero, mul_one, show (0 : ℚ).num = 0 from by decide]
  decide

theorem ratToDec_five : ratToDec (5 : ℚ) = ascii "5.0" := by
  rw [ratToDec, if_neg (by norm_num), ratToDecNN]
  rw [show (5 : ℚ).den = 1 from by decide, show decExp 1 = 0 from by decide,
    pow_zero, mul_one, show (5 : ℚ).num = 5 from by decide]
  decide

theorem ratToDec_ten : ratToDec (10 : ℚ) = ascii "10.0" := by
  rw [ratToDec, if_neg (by norm_num), ratToDecNN]
  rw [show (10 : ℚ).den = 1 from by decide, show decExp 1 = 0 from by decide,
    pow_zero, mul_one, show (10 : ℚ).num = 10 from by decide]
  decide

/-- The two content-identical example transactions carry different full
digests under the identity digest. -/
theorem exTx_hash_ne : Transaction.to_hash idH exTx1
    ≠ Transaction.to_hash idH exTx2 := by
  simp only [Transaction.to_hash, idH, Transaction.to_base64, exTx1, exTx2,
    ratToDec_five, ratToDec_zero]
  decide

theorem exBalanceA : Blockchain.get_account_balance [exRewardBlock] exAddrA
    = 10 := by
  unfold Blockchain.get_account_balance
  norm_num [exRewardBlock]

/-! ## Merkle refinement -/

theorem buildLevel_eq_spec (H : Str → Str) :
    ∀ l : List Str, buildLevel H l = specMerkleLevel H l
  | [] => rfl
  | [x] => rfl
  | x :: y :: rest => by
    show H (x ++ y) :: buildLevel H rest
      = H (x ++ y) :: specMerkleLevel H rest
    rw [buildLevel_eq_spec H rest]

theorem merkleSpecSteps_single (H : Str → Str) (x : Str) :
    merkleSpecSteps H [x] = x := rfl

theorem merkleLoop_eq_spec (H : Str → Str) : ∀ (n : Nat) (l : List Str),
    l.length ≤ n → merkleLoop H l = merkleSpecSteps H l := by
  intro n
  induction n with
  | zero =>
    intro l hl
    have h0 : l = [] := List.eq_nil_of_length_eq_zero (by omega)
    subst h0
    show H [] = H (ascii "")
    rfl
  | succ n ih =>
    intro l hl
    cases l with
    | nil =>
      show H [] = H (ascii "")
      rfl
    | cons x tail =>
      cases tail with
      | nil => rfl
      | cons y rest =>
        rw [merkleLoop_pair, merkleSpecSteps_pair, ← buildLevel_eq_spec]
        refine ih _ ?_
        rw [buildLevel_length]
        simp only [List.length_cons] at hl ⊢
        omega

/-- Claim C1 (amended): the Merkle root follows the spec's level-by-level
algorithm — pairs combined as the digest of the concatenation, an odd
trailing node duplicated, recursion to a single node, the empty list
giving the digest of the empty string — but over leaves that are the
transactions' FULL digests (signature included), not their content
digests. -/
theorem C1_merkle_root_amended (H : Str → Str) (txs : List Transaction) :
    TransactionMerkleTree.get_merkle_root H txs
      = merkleSpecSteps H (txs.map (Transaction.to_hash H)) := by
  unfold TransactionMerkleTree.get_merkle_root
  exact merkleLoop_eq_spec H _ _ le_rfl

/-- Claim C1 counterexample: on a one-transaction list the computed root
differs from the spec algorithm run on content-digest leaves. -/
theorem C1_merkle_root_counterexample :
    TransactionMerkleTree.get_merkle_root idH [exTx1]
      ≠ merkleSpecSteps idH
        ([exTx1].map (Transaction.to_hash_with_content_only idH)) := by
  simp only [TransactionMerkleTree.get_merkle_root, List.map_cons,
    List.map_nil, merkleLoop_single, merkleSpecSteps_single,
    Transaction.to_hash, Transaction.to_hash_with_content_only, idH,
    Transaction.to_base64, Transaction.to_base64_with_content_only,
    exTx1, ratToDec_five, ratToDec_zero]
  decide

/-- Claim C2 (amended): the content-only (seal) encoding equals the full
canonical encoding with the `hash` field removed only for blocks with no
transactions; the transactions compound field is rendered differently in
the two forms (the full form base64-encodes each transaction encoding
before joining, the seal form joins the raw encodings). -/
theorem C2_seal_encoding_amended (H : Str → Str) (b : Block)
    (he : b.transactions = []) :
    Block.to_base64_with_content_only H b
      = removeHashField (Block.to_base64 H b) := by
  have hsplit : splitCS (((Block.to_base64 H b).drop 7).dropLast)
      = [attrF "previousHash" (b64encode b.previous_hash),
        attrF "hash" (b64encode b.hash),
        attrF "difficulty" (b64encode (intToDec b.difficulty)),
        attrF "nonce" (b64encode (intToDec b.nonce)),
        attrF "timestamp" (b64encode (intToDec b.timestamp)),
        attrF "transactions" (b64encode (joinCS
          (b.transactions.map (fun t => b64encode t.to_base64)))),
        attrF "merkleTree" (b64encode (b.get_merkle_root H)),
        attrF "miner" (b64encode b.miner),
        attrF "minerRewards" (b64encode (ratToDec b.miner_rewards))] := by
    unfold Block.to_base64
    rw [List.append_assoc,
      show (7 : Nat) = (ascii "Block [").length from rfl, List.drop_left,
      show ascii "]" = [93] from rfl, List.dropLast_concat,
      splitCS_joinCS _ (by intro hco; cases hco) (blk_attrs_no_comma H b)]
  unfold removeHashField
  rw [hsplit]
  unfold Block.to_base64_with_content_only
  rw [he]
  rfl

/-- Claim C2 witness: the amended equality at a concrete empty block. -/
theorem C2_seal_encoding_witness :
    exBlockC2e.transactions = [] ∧
    Block.to_base64_with_content_only idH exBlockC2e
      = removeHashField (Block.to_base64 idH exBlockC2e) :=
  ⟨rfl, C2_seal_encoding_amended idH exBlockC2e rfl⟩

set_option maxRecDepth 8000 in
/-- Claim C2 counterexample: with one transaction the seal encoding is
not the hash-stripped full encoding. -/
theorem C2_seal_encoding_counterexample :
    Block.to_base64_with_content_only idH exBlockC2
      ≠ removeHashField (Block.to_base64 idH exBlockC2) := by
  simp only [Block.to_base64_with_content_only, Block.to_base64,
    removeHashField, Block.get_merkle_root,
    TransactionMerkleTree.get_merkle_root, exBlockC2, exTx1,
    List.map_cons, List.map_nil, merkleLoop_single,
    Transaction.to_hash, Transaction.to_base64, idH,
    ratToDec_five, ratToDec_zero, ratToDec_ten]
  decide

/-- The always-true signature oracle, a legitimate instantiation of the
abstract verifier for concrete evaluation. -/
def exVerifyT : Str → Str → Str → Bool := fun _ _ _ => true

/-- An address-type detector that recognises nothing. -/
def exDetectU : Str → AddrType := fun _ => AddrType.UNKNOWN

/-- An address-type detector that sees every address as ECDSA. -/
def exDetectE : Str → AddrType := fun _ => AddrType.ECDSA

/-- A zero-transaction block whose hash is its own seal digest under the
identity digest (the seal encoding does not read the hash field). -/
def exB4base : Block :=
  { previous_hash := ascii "h1", hash := [], difficulty := 0, nonce := 0,
    timestamp := 4, transactions := [], miner := exAddrA,
    miner_rewards := 0 }

def exB4 : Block :=
  { exB4base with hash := Block.to_hash_with_content_only idH exB4base }

def exStateC3 : BlockchainState :=
  { difficulty := 0, mining := true, network_nodes := [],
    chain := [exB1], pending_transactions := [] }

/-- Claim C3 (amended): a received block whose `merkle_tree` attribute
is unset — which is every block decoded from the wire with zero
transactions, since `from_base64` assigns the attribute only through
`add_transaction` — makes receive_block raise (`none`) before any state
change, so such a block is never accepted.  For a block with the
attribute set, acceptance holds exactly when, in order, the hash is new
to the chain, the block links to the current tip, its difficulty matches
the node's, its hash has the required zero prefix, the recomputed seal
digest and Merkle root match, and every contained transaction's
signature verifies; on acceptance the block is appended and the included
transactions leave the mempool, and on an ordinary rejection the state
is unchanged. -/
theorem C3_receive_block_amended (H : Str → Str)
    (verify : Str → Str → Str → Bool) (st : BlockchainState) (nb : Block) :
    Blockchain.receive_block H verify st nb false = none ∧
    ((∃ stf, Blockchain.receive_block H verify st nb true
        = some (true, stf)) ↔
      ((∀ b ∈ st.chain, nb.hash ≠ b.hash) ∧
       (∃ tip, st.chain.getLast? = some tip ∧
         nb.previous_hash = tip.hash) ∧
       nb.difficulty = st.difficulty ∧
       (List.replicate st.difficulty.toNat 48).isPrefixOf nb.hash = true ∧
       nb.hash = nb.to_hash_with_content_only H ∧
       nb.get_merkle_root H
         = TransactionMerkleTree.get_merkle_root H nb.transactions ∧
       (∀ t ∈ nb.transactions, verify t.sender
         t.to_base64_with_content_only t.signature = true))) ∧
    (∀ b2 st2, Blockchain.receive_block H verify st nb true
        = some (b2, st2) →
      st2 = if b2 then { st with
          pending_transactions := st.pending_transactions.filter
            (fun p => ¬ nb.transactions.any
              (fun t => t.to_hash H = p.to_hash H)),
          chain := st.chain ++ [nb] }
        else st) :=
  ⟨receive_block_unset H verify st nb,
   receive_block_accepts_iff H verify st nb,
   receive_block_state H verify st nb⟩

/-- The state the example block's acceptance would produce. -/
def exStateC3acc : BlockchainState :=
  { difficulty := 0, mining := true, network_nodes := [],
    chain := [exB1, exB4], pending_transactions := [] }

/-- Claim C3 counterexample: a concrete zero-transaction block that
passes all seven checks (with its `merkle_tree` attribute set it is
accepted and appended) is never accepted through the wire path, where
the decoder leaves the attribute unset and receive_block raises. -/
theorem C3_receive_block_counterexample :
    exB4.transactions = [] ∧
    Blockchain.receive_block idH exVerifyT exStateC3 exB4 true
      = some (true, exStateC3acc) ∧
    Blockchain.receive_block idH exVerifyT exStateC3 exB4 false = none := by
  refine ⟨rfl, ?_, receive_block_unset idH exVerifyT exStateC3 exB4⟩
  have hex : ∃ stf, Blockchain.receive_block idH exVerifyT exStateC3 exB4
      true = some (true, stf) := by
    rw [receive_block_accepts_iff]
    refine ⟨?_, ⟨exB1, rfl, rfl⟩, rfl, by decide, rfl, rfl, ?_⟩
    · intro b hb
      rw [show exStateC3.chain = [exB1] from rfl, List.mem_singleton] at hb
      subst hb
      simp only [exB4, exB4base, exB1, Block.to_hash_with_content_only,
        Block.to_base64_with_content_only, Block.get_merkle_root,
        TransactionMerkleTree.get_merkle_root, List.map_nil, idH,
        ratToDec_zero]
      decide
    · intro t ht
      rw [show exB4.transactions = [] from rfl] at ht
      cases ht
  obtain ⟨stf, heq⟩ := hex
  have hst := receive_block_state idH exVerifyT exStateC3 exB4 true stf heq
  rw [if_pos rfl] at hst
  rw [heq, hst]
  rfl

/-- Claim C4 (amended): receive_transaction accepts exactly when, in
order, the SENDER's signature length matches the algorithm its address
detects as (the receiver's address is never examined, and an
unrecognised sender address falls back to the RSA length rather than
being rejected), the signature verifies over the content-only encoding,
the chain-only balance of the sender covers amount + fee (equality
accepted), and the full digest is absent from mempool and chain; on
acceptance the transaction is appended to the mempool, otherwise the
state is unchanged. -/
theorem C4_receive_transaction_amended (H : Str → Str)
    (verify : Str → Str → Str → Bool) (detect : Str → AddrType)
    (st : BlockchainState) (t : Transaction) :
    ((Blockchain.receive_transaction H verify detect st t).1 = true ↔
      (Security.validate_signature_format detect t.sender t.signature = true ∧
       verify t.sender t.to_base64_with_content_only t.signature = true ∧
       t.amount + t.fee ≤ Blockchain.get_account_balance st.chain t.sender ∧
       (∀ p ∈ st.pending_transactions, p.to_hash H ≠ t.to_hash H) ∧
       (∀ b ∈ st.chain, ∀ t2 ∈ b.transactions,
         t2.to_hash H ≠ t.to_hash H))) ∧
    (Blockchain.receive_transaction H verify detect st t).2 =
      (if (Blockchain.receive_transaction H verify detect st t).1
       then { st with pending_transactions :=
         st.pending_transactions ++ [t] }
       else st) :=
  ⟨receive_transaction_accepts_iff H verify detect st t,
   receive_transaction_state H verify detect st t⟩

set_option maxRecDepth 8000 in
/-- Claim C4 counterexample: a transaction whose sender and receiver
addresses are both detected as UNKNOWN key formats is still accepted —
the receiver is never checked and an UNKNOWN sender is handled with the
RSA fallback length instead of a rejection. -/
theorem C4_receive_transaction_counterexample :
    exDetectU exTxU.sender = AddrType.UNKNOWN ∧
    exDetectU exTxU.receiver = AddrType.UNKNOWN ∧
    (Blockchain.receive_transaction idH exVerifyT exDetectU exState exTxU).1
      = true := by
  refine ⟨rfl, rfl, ?_⟩
  rw [receive_transaction_accepts_iff]
  refine ⟨by decide, rfl, ?_, ?_, ?_⟩
  · have hbal : Blockchain.get_account_balance exState.chain exTxU.sender
        = 10 := exBalanceA
    rw [hbal]
    show (5 : ℚ) + 0 ≤ 10
    norm_num
  · intro p hp
    simp [exState] at hp
  · intro b hb t2 ht2
    simp only [exState, List.mem_cons, List.not_mem_nil, or_false] at hb
    subst hb
    simp [exRewardBlock] at ht2

/-- Claim C6: the difficulty retarget is a no-op unless mining is enabled
and the chain length satisfies the retarget trigger; when it fires, the
average block interval over the last W blocks (milliseconds floored to
seconds, divided by W) decides a decrement floored at 1 when it exceeds
the target time, and an increment otherwise. -/
theorem C6_adjust_difficulty_characterization (st : BlockchainState) :
    Blockchain.adjust_difficulty st =
      if st.mining = true
          ∧ st.chain.length % BlockchainConfig.ADJUST_DIFFICULTY_IN_EVERY = 1
          ∧ st.chain.length > BlockchainConfig.ADJUST_DIFFICULTY_IN_EVERY
      then
        (if ((Int.fdiv ((st.chain.getD (st.chain.length - 1)
                emptyBlock).timestamp
              - (st.chain.getD (st.chain.length
                  - BlockchainConfig.ADJUST_DIFFICULTY_IN_EVERY - 1)
                emptyBlock).timestamp) 1000 : ℚ)
            / (BlockchainConfig.ADJUST_DIFFICULTY_IN_EVERY : ℚ)
            > (BlockchainConfig.BLOCK_TIME_IN_EVERY : ℚ)) then
          { st with difficulty := max (st.difficulty - 1) 1 }
        else { st with difficulty := st.difficulty + 1 })
      else st := by
  unfold Blockchain.adjust_difficulty
  cases hm : st.mining with
  | false =>
    rw [if_pos (by simp [hm]), if_neg (by simp [hm])]
  | true =>
    rw [if_neg (by simp [hm])]
    dsimp only
    simp only [eq_self_iff_true, true_and]
    by_cases hc : st.chain.length % BlockchainConfig.ADJUST_DIFFICULTY_IN_EVERY
        = 1 ∧ st.chain.length > BlockchainConfig.ADJUST_DIFFICULTY_IN_EVERY
    · rw [if_pos hc, if_pos hc]
      by_cases havg : ((Int.fdiv ((st.chain.getD (st.chain.length - 1)
              emptyBlock).timestamp
            - (st.chain.getD (st.chain.length
                - BlockchainConfig.ADJUST_DIFFICULTY_IN_EVERY - 1)
              emptyBlock).timestamp) 1000 : ℚ)
          / (BlockchainConfig.ADJUST_DIFFICULTY_IN_EVERY : ℚ)
          > (BlockchainConfig.BLOCK_TIME_IN_EVERY : ℚ))
      · rw [if_pos havg, if_pos havg]
        by_cases hd : st.difficulty > 1
        · rw [if_pos hd,
            show max (st.difficulty - 1) 1 = st.difficulty - 1 from
              max_eq_left (by omega)]
        · rw [if_neg hd,
            show max (st.difficulty - 1) 1 = 1 from
              max_eq_right (by omega)]
      · rw [if_neg havg, if_neg havg]
    · rw [if_neg hc, if_neg hc]

/-- Claim C7: the account balance is the full scan over the chain — per
block the reward when the miner matches, plus per transaction the fee to
the block's miner, minus amount + fee from the sender, plus amount to the
receiver; nothing else contributes and the mempool plays no part. -/
theorem C7_balance_full_scan (chain : List Block) (account : Str) :
    Blockchain.get_account_balance chain account
      = balanceSpec chain account :=
  balance_eq_spec chain account

/-! ## Clone protocol (C5) -/

theorem wfBlock_simple (b : Block) (h1 : WfStr b.previous_hash)
    (h2 : WfStr b.hash) (h3 : WfStr b.miner) (h4 : b.miner_rewards.den = 1)
    (h5 : b.transactions = []) : WfBlock b :=
  ⟨h1, h2, h3, DecimalRep_den_one _ h4, by rw [h5]; intro t ht; cases ht⟩

/-- The state that decoding the well-linked snapshot installs. -/
def exSnapGoodDecoded : BlockchainState :=
  { difficulty := 2, mining := false, network_nodes := [],
    chain := [exB1, exB2], pending_transactions := [] }

/-- The state that decoding the broken snapshot installs. -/
def exSnapBadDecoded : BlockchainState :=
  { difficulty := 2, mining := false, network_nodes := [],
    chain := [exB1, exB2bad, exB3], pending_transactions := [] }

theorem exSnapGood_decode :
    Blockchain.from_base64_of_exchange idH
      { exInitState with
        mining := false
        chain := []
        pending_transactions := [] }
      (Blockchain.to_base64_for_exchange idH exSnapGood)
      = some exSnapGoodDecoded := by
  rw [from_base64_of_exchange_to_base64 idH _ exSnapGood rfl
    (by
      intro b hb
      rw [show exSnapGood.chain = [exB1, exB2] from rfl] at hb
      simp only [List.mem_cons, List.not_mem_nil, or_false] at hb
      rcases hb with h | h <;> subst h <;>
        exact wfBlock_simple _ (by decide) (by decide) (by decide)
          (by decide) rfl)
    (by
      intro b hb
      rw [show exSnapGood.chain = [exB1, exB2] from rfl] at hb
      simp only [List.mem_cons, List.not_mem_nil, or_false] at hb
      rcases hb with h | h <;> subst h <;>
        · rw [show Block.transactions _ = [] from rfl]
          exact List.Pairwise.nil)]
  rfl

theorem exSnapBad_decode :
    Blockchain.from_base64_of_exchange idH
      { exInitState with
        mining := false
        chain := []
        pending_transactions := [] }
      (Blockchain.to_base64_for_exchange idH exSnapBad)
      = some exSnapBadDecoded := by
  rw [from_base64_of_exchange_to_base64 idH _ exSnapBad rfl
    (by
      intro b hb
      rw [show exSnapBad.chain = [exB1, exB2bad, exB3] from rfl] at hb
      simp only [List.mem_cons, List.not_mem_nil, or_false] at hb
      rcases hb with h | h | h <;> subst h <;>
        exact wfBlock_simple _ (by decide) (by decide) (by decide)
          (by decide) rfl)
    (by
      intro b hb
      rw [show exSnapBad.chain = [exB1, exB2bad, exB3] from rfl] at hb
      simp only [List.mem_cons, List.not_mem_nil, or_false] at hb
      rcases hb with h | h | h <;> subst h <;>
        · rw [show Block.transactions _ = [] from rfl]
          exact List.Pairwise.nil)]
  rfl

/-- Claim C5 (amended): the clone protocol adopts the decoded snapshot
first and only then runs the I1/I2 validation loop; a failed validation
reports `false` but leaves the node's chain equal to the invalid
snapshot.  Snapshots of fewer than three blocks skip the inter-block
checks, and for longer chains the loop covers indices 0 through
len - 3 as link sources (`i < len - 2`). -/
theorem C5_clone_validation_amended (H : Str → Str)
    (st st3 : BlockchainState) (response : Str)
    (hne : st.chain ≠ [])
    (hdec : Blockchain.from_base64_of_exchange H
      { st with
        mining := false
        chain := []
        pending_transactions := [] } response = some st3) :
    Blockchain.get_blockchain_from H st response
      = ((if st3.chain.length > 2 then cloneChecksOk st3.chain else true),
         st3)
    ∧ (cloneChecksOk st3.chain = true ↔
        ∀ i < st3.chain.length - 2,
          (st3.chain.getD (i + 1) emptyBlock).previous_hash
              = (st3.chain.getD i emptyBlock).hash ∧
          (st3.chain.getD i emptyBlock).timestamp
              ≤ (st3.chain.getD (i + 1) emptyBlock).timestamp) := by
  constructor
  · unfold Blockchain.get_blockchain_from
    dsimp only
    rw [if_pos hne, hdec]
    dsimp only
    by_cases hlen : st3.chain.length > 2
    · rw [if_pos hlen, if_pos hlen]
    · rw [if_neg hlen, if_neg hlen]
  · unfold cloneChecksOk
    rw [decide_eq_true_eq]

/-- Claim C5 witness: the amended behaviour at a concrete two-block
snapshot, adopted with no inter-block checks. -/
theorem C5_clone_validation_witness :
    exInitState.chain ≠ [] ∧
    Blockchain.from_base64_of_exchange idH
      { exInitState with
        mining := false
        chain := []
        pending_transactions := [] }
      (Blockchain.to_base64_for_exchange idH exSnapGood)
      = some exSnapGoodDecoded ∧
    (Blockchain.get_blockchain_from idH exInitState
        (Blockchain.to_base64_for_exchange idH exSnapGood)
      = ((if exSnapGoodDecoded.chain.length > 2
          then cloneChecksOk exSnapGoodDecoded.chain else true),
         exSnapGoodDecoded)
    ∧ (cloneChecksOk exSnapGoodDecoded.chain = true ↔
        ∀ i < exSnapGoodDecoded.chain.length - 2,
          (exSnapGoodDecoded.chain.getD (i + 1) emptyBlock).previous_hash
              = (exSnapGoodDecoded.chain.getD i emptyBlock).hash ∧
          (exSnapGoodDecoded.chain.getD i emptyBlock).timestamp
              ≤ (exSnapGoodDecoded.chain.getD (i + 1) emptyBlock).timestamp)) :=
  ⟨by simp [exInitState], exSnapGood_decode,
   C5_clone_validation_amended idH exInitState exSnapGoodDecoded _
     (by simp [exInitState]) exSnapGood_decode⟩

/-- Claim C5 counterexample: a three-block snapshot violating I1 at the
checked index 0 makes the clone operation report failure, yet the node's
chain IS left equal to the invalid snapshot — validation runs only after
adoption. -/
theorem C5_clone_validation_counterexample :
    exB2bad.previous_hash ≠ exB1.hash ∧
    (Blockchain.get_blockchain_from idH exInitState
        (Blockchain.to_base64_for_exchange idH exSnapBad)).1 = false ∧
    (Blockchain.get_blockchain_from idH exInitState
        (Blockchain.to_base64_for_exchange idH exSnapBad)).2.chain
      = [exB1, exB2bad, exB3] := by
  have hres : Blockchain.get_blockchain_from idH exInitState
      (Blockchain.to_base64_for_exchange idH exSnapBad)
      = (cloneChecksOk exSnapBadDecoded.chain, exSnapBadDecoded) := by
    unfold Blockchain.get_blockchain_from
    dsimp only
    rw [if_pos (by simp [exInitState]), exSnapBad_decode]
    dsimp only
    rw [if_pos (by decide)]
  rw [hres]
  refine ⟨by decide, ?_, rfl⟩
  rw [show cloneChecksOk exSnapBadDecoded.chain = false from by decide]

/-- Claim C8 (amended): over any account set covering every address the
chain mentions, the balances sum to the total of the blocks'
`miner_rewards` — fees net to zero — and under the uniform reward the
total is `len(chain) * MINING_REWARDS`, not
`(len(chain) + count_of_mined_blocks_with_reward) * MINING_REWARDS`. -/
theorem C8_conservation_amended (chain : List Block) (S : Finset Str)
    (hS : chainAddresses chain ⊆ S) :
    (∑ a in S, Blockchain.get_account_balance chain a)
      = (chain.map Block.miner_rewards).sum
    ∧ ((∀ b ∈ chain, b.miner_rewards = BlockchainConfig.MINING_REWARDS) →
      (∑ a in S, Blockchain.get_account_balance chain a)
        = chain.length * BlockchainConfig.MINING_REWARDS) := by
  have h1 : (∑ a in S, Blockchain.get_account_balance chain a)
      = (chain.map Block.miner_rewards).sum := by
    have h2 := sum_balanceSpec S chain
      (fun b hb => hS (chainAddresses_miner chain b hb))
      (fun b hb t ht => ⟨hS (chainAddresses_tx chain b hb t ht).1,
        hS (chainAddresses_tx chain b hb t ht).2⟩)
    calc (∑ a in S, Blockchain.get_account_balance chain a)
        = ∑ a in S, balanceSpec chain a :=
          Finset.sum_congr rfl (fun a _ => balance_eq_spec chain a)
      _ = (chain.map Block.miner_rewards).sum := h2
  refine ⟨h1, fun hu => ?_⟩
  rw [h1]
  have h3 : ∀ ch : List Block,
      (∀ b ∈ ch, b.miner_rewards = BlockchainConfig.MINING_REWARDS) →
      (ch.map Block.miner_rewards).sum
        = ch.length * BlockchainConfig.MINING_REWARDS := by
    intro ch
    induction ch with
    | nil => intro _; simp
    | cons b r ih =>
      intro hu2
      rw [List.map_cons, List.sum_cons,
        ih (fun x hx => hu2 x (List.mem_cons_of_mem b hx)),
        hu2 b (List.mem_cons_self b r), List.length_cons]
      push_cast
      ring
  exact h3 chain hu

/-- Claim C8 witness: the amended conservation at a one-block chain. -/
theorem C8_conservation_witness :
    chainAddresses [exRewardBlock] ⊆ chainAddresses [exRewardBlock] ∧
    ((∑ a in chainAddresses [exRewardBlock],
        Blockchain.get_account_balance [exRewardBlock] a)
      = ([exRewardBlock].map Block.miner_rewards).sum
    ∧ ((∀ b ∈ [exRewardBlock],
        b.miner_rewards = BlockchainConfig.MINING_REWARDS) →
      (∑ a in chainAddresses [exRewardBlock],
        Blockchain.get_account_balance [exRewardBlock] a)
        = ([exRewardBlock] : List Block).length
            * BlockchainConfig.MINING_REWARDS)) :=
  ⟨Finset.Subset.refl _,
   C8_conservation_amended [exRewardBlock] _ (Finset.Subset.refl _)⟩

/-- Claim C8 counterexample: on a one-block chain whose only block pays
the standard reward, the balances sum to 10, not the claimed
`(1 + 1) * 10 = 20`. -/
theorem C8_conservation_counterexample :
    (∑ a in chainAddresses [exRewardBlock],
        Blockchain.get_account_balance [exRewardBlock] a)
      ≠ ((([exRewardBlock] : List Block).length
            + countRewardedBlocks [exRewardBlock] : Nat) : ℚ)
        * BlockchainConfig.MINING_REWARDS := by
  have hca : chainAddresses [exRewardBlock] = {exAddrA} := by
    simp [chainAddresses, exRewardBlock]
  have hcount : countRewardedBlocks [exRewardBlock] = 1 := by
    unfold countRewardedBlocks
    rw [show List.filter
        (fun b => decide (b.miner_rewards ≠ 0)) [exRewardBlock]
      = [exRewardBlock] from by
        rw [List.filter_cons, if_pos (by norm_num [exRewardBlock])]
        rfl]
    rfl
  rw [hca, Finset.sum_singleton, exBalanceA, hcount]
  norm_num [BlockchainConfig.MINING_REWARDS]

/-! ## Codec round trips (C9) -/

theorem exTx1_wf : WfTransaction exTx1 :=
  ⟨by decide, by decide, by decide, by decide,
   DecimalRep_den_one _ (by decide), DecimalRep_den_one _ (by decide)⟩

theorem exTx2_wf : WfTransaction exTx2 :=
  ⟨by decide, by decide, by decide, by decide,
   DecimalRep_den_one _ (by decide), DecimalRep_den_one _ (by decide)⟩

theorem exBlockRT_wf : WfBlock exBlockRT :=
  ⟨by decide, by decide, by decide, DecimalRep_den_one _ (by decide), by
    intro t ht
    rw [show exBlockRT.transactions = [exTx1, exTx2] from rfl] at ht
    simp only [List.mem_cons, List.not_mem_nil, or_false] at ht
    rcases ht with h | h
    · rw [h]; exact exTx1_wf
    · rw [h]; exact exTx2_wf⟩

theorem exBlockRT_pairwise : List.Pairwise
    (fun x y => x.to_hash idH ≠ y.to_hash idH) exBlockRT.transactions := by
  rw [show exBlockRT.transactions = [exTx1, exTx2] from rfl]
  refine List.Pairwise.cons ?_ (List.pairwise_singleton _ _)
  intro y hy
  rw [List.mem_singleton] at hy
  rw [hy]
  exact exTx_hash_ne

/-- Claim C9: decoding the canonical encoding of a well-formed
Transaction, Block (transactions pairwise distinct by full digest) or
NetworkNode yields the original value, field by field. -/
theorem C9_round_trip (H : Str → Str) (t : Transaction) (b : Block)
    (nn : NetworkNode) (ht : WfTransaction t) (hb : WfBlock b)
    (hdist : List.Pairwise (fun x y => x.to_hash H ≠ y.to_hash H)
      b.transactions)
    (hn : WfStr nn.inet_address) :
    Transaction.from_base64 t.to_base64 = some t ∧
    Block.from_base64 H (b.to_base64 H) = some b ∧
    NetworkNode.from_base64 nn.to_base64 = some nn :=
  ⟨Transaction.from_base64_to_base64 t ht,
   blk_from_base64_to_base64 H b hb hdist,
   nn_from_base64_to_base64 nn hn⟩

/-- Claim C9 witness: the round trips at concrete values, including a
two-transaction block. -/
theorem C9_round_trip_witness :
    WfTransaction exTx1 ∧ WfBlock exBlockRT ∧
    List.Pairwise (fun x y => x.to_hash idH ≠ y.to_hash idH)
      exBlockRT.transactions ∧
    WfStr exNode.inet_address ∧
    (Transaction.from_base64 exTx1.to_base64 = some exTx1 ∧
     Block.from_base64 idH (exBlockRT.to_base64 idH) = some exBlockRT ∧
     NetworkNode.from_base64 exNode.to_base64 = some exNode) :=
  ⟨exTx1_wf, exBlockRT_wf, exBlockRT_pairwise, by decide,
   C9_round_trip idH exTx1 exBlockRT exNode exTx1_wf exBlockRT_wf
     exBlockRT_pairwise (by decide)⟩

/-- Claim C10: every duplicate check on transactions — against the
mempool, against the chain, and inside a single block — compares the
digest of the FULL canonical encoding, signature included; two
transactions identical in every content field but with different
signature bytes are distinct to all three checks, so the second is
admitted alongside the first. -/
theorem C10_dup_checks_full_digest (H : Str → Str)
    (verify : Str → Str → Str → Bool) (detect : Str → AddrType)
    (st : BlockchainState) (t1 t2 : Transaction)
    (hc : t1.sender = t2.sender ∧ t1.receiver = t2.receiver ∧
      t1.amount = t2.amount ∧ t1.fee = t2.fee ∧
      t1.timestamp = t2.timestamp ∧ t1.message = t2.message)
    (hh : t1.to_hash H ≠ t2.to_hash H)
    (hp : st.pending_transactions = [t1])
    (hchain : ∀ b ∈ st.chain, b.transactions = [])
    (hfmt : Security.validate_signature_format detect t2.sender
      t2.signature = true)
    (hver : verify t2.sender t2.to_base64_with_content_only
      t2.signature = true)
    (hbal : t2.amount + t2.fee
      ≤ Blockchain.get_account_balance st.chain t2.sender) :
    (Blockchain.receive_transaction H verify detect st t2).1 = true ∧
    (Blockchain.receive_transaction H verify detect st
      t2).2.pending_transactions = [t1, t2] ∧
    addTransaction H [t1] t2 = [t1, t2] := by
  have hacc : (Blockchain.receive_transaction H verify detect st t2).1
      = true := by
    rw [receive_transaction_accepts_iff]
    refine ⟨hfmt, hver, hbal, ?_, ?_⟩
    · intro p hp2
      rw [hp, List.mem_singleton] at hp2
      rw [hp2]
      exact hh
    · intro b hb t3 ht3
      rw [hchain b hb] at ht3
      cases ht3
  refine ⟨hacc, ?_, ?_⟩
  · rw [receive_transaction_state, hacc, if_pos rfl, hp]
    rfl
  · unfold addTransaction
    rw [if_neg (by
      simp only [List.any_cons, List.any_nil, Bool.or_false,
        decide_eq_true_eq]
      exact hh)]
    rfl

/-- The example state with one pending transaction. -/
def exStateP : BlockchainState :=
  { difficulty := 1, mining := true, network_nodes := [],
    chain := [exRewardBlock], pending_transactions := [exTx1] }

/-- Claim C10 witness: the concrete pair of content-identical,
differently-signed transactions is admitted side by side. -/
theorem C10_dup_checks_witness :
    (exTx1.sender = exTx2.sender ∧ exTx1.receiver = exTx2.receiver ∧
      exTx1.amount = exTx2.amount ∧ exTx1.fee = exTx2.fee ∧
      exTx1.timestamp = exTx2.timestamp ∧
      exTx1.message = exTx2.message) ∧
    Transaction.to_hash idH exTx1 ≠ Transaction.to_hash idH exTx2 ∧
    exStateP.pending_transactions = [exTx1] ∧
    (∀ b ∈ exStateP.chain, b.transactions = []) ∧
    Security.validate_signature_format exDetectE exTx2.sender
      exTx2.signature = true ∧
    exVerifyT exTx2.sender exTx2.to_base64_with_content_only
      exTx2.signature = true ∧
    exTx2.amount + exTx2.fee
      ≤ Blockchain.get_account_balance exStateP.chain exTx2.sender ∧
    ((Blockchain.receive_transaction idH exVerifyT exDetectE exStateP
        exTx2).1 = true ∧
     (Blockchain.receive_transaction idH exVerifyT exDetectE exStateP
        exTx2).2.pending_transactions = [exTx1, exTx2] ∧
     addTransaction idH [exTx1] exTx2 = [exTx1, exTx2]) := by
  have hchain2 : ∀ b ∈ exStateP.chain, b.transactions = [] := by
    intro b hb
    rw [show exStateP.chain = [exRewardBlock] from rfl] at hb
    simp only [List.mem_cons, List.not_mem_nil, or_false] at hb
    rw [hb]
    rfl
  have hbal2 : exTx2.amount + exTx2.fee
      ≤ Blockchain.get_account_balance exStateP.chain exTx2.sender := by
    have hb10 : Blockchain.get_account_balance exStateP.chain exTx2.sender
        = 10 := exBalanceA
    rw [hb10]
    show (5 : ℚ) + 0 ≤ 10
    norm_num
  exact ⟨⟨rfl, rfl, rfl, rfl, rfl, rfl⟩, exTx_hash_ne, rfl, hchain2,
    by decide, rfl, hbal2,
    C10_dup_checks_full_digest idH exVerifyT exDetectE exStateP exTx1 exTx2
      ⟨rfl, rfl, rfl, rfl, rfl, rfl⟩ exTx_hash_ne rfl hchain2 (by decide)
      rfl hbal2⟩
